import Mathlib

/-!
# fmtp: parsing and matching of format-parameter lines

A shallow embedding of `internal/fmtp/fmtp.go` and a verification of its specification.

Data model of the embedding:

* a Go `string` is the list of its code points (`Str`);
* a Go `map[string]string` is a list of entries with pairwise distinct keys (`GoMap`); the order
  of the list is the order in which a `range` loop visits the entries, so a statement about all
  maps is a statement about all iteration orders;
* `uint32` and `uint16` values are natural numbers (no arithmetic is performed on them, only
  comparison with `0` and with each other);
* the interface `FMTP` is the sum of its implementations;
* an index expression carries the proof that it is in range; `parseParametersChecked` and
  `ParseChecked` evaluate the index at run time instead, with `none` for a panic.

The functions of the Go `strings` package used by the source are modelled in the namespace
`strings`. Their behaviour on ASCII is fixed by the package itself; for code points outside
ASCII they consult the tables of the `unicode` package, which enter as a parameter
(`Tables`).
-/

namespace fmtp

/-- A Go string, as the list of its code points. -/
abbrev Str := List Char

/-- The tables of the Go `unicode` package consulted outside the ranges that the package
decides by itself: `lower` is the lower-case mapping of a code point above ASCII, `fold` picks
the representative of its case-folding orbit (the orbit that `unicode.SimpleFold` cycles
through; the representative of an orbit with an ASCII letter is the lower-case ASCII letter), and
`space` is the `White_Space` property above Latin-1. -/
structure Tables where
  lower : Char → Char
  fold : Char → Char
  space : Char → Bool

/-- The tables in which no code point above ASCII has a case variant and no code point above
Latin-1 is white space. -/
def asciiTables : Tables := ⟨fun c => c, fun c => c, fun _ => false⟩

namespace unicode

/-- ASCII lower-casing: `A`..`Z` move to `a`..`z`. -/
def asciiLower (c : Char) : Char :=
  if 65 ≤ c.toNat ∧ c.toNat ≤ 90 then Char.ofNat (c.toNat + 32) else c

/-- Go `unicode.ToLower`. -/
def ToLower (U : Tables) (c : Char) : Char :=
  if c.toNat ≤ 127 then asciiLower c else U.lower c

/-- Representative of the case-folding orbit of a code point: two code points are equal under
simple case folding exactly when their representatives coincide. -/
def foldKey (U : Tables) (c : Char) : Char :=
  if c.toNat ≤ 127 then asciiLower c else U.fold c

/-- Go `unicode.IsSpace`: in Latin-1 the characters tab, line feed, vertical tab, form feed,
carriage return, space, U+0085 and U+00A0; above Latin-1 the `White_Space` table. -/
def IsSpace (U : Tables) (c : Char) : Bool :=
  if c.toNat ≤ 255 then
    c.toNat = 9 || c.toNat = 10 || c.toNat = 11 || c.toNat = 12 || c.toNat = 13
      || c.toNat = 32 || c.toNat = 133 || c.toNat = 160
  else U.space c

end unicode

namespace strings

/-- Go `strings.Cut` for a one-character separator: the text before and after the first
occurrence of `sep`, or `none` when `sep` does not occur. -/
def Cut : Str → Char → Option (Str × Str)
  | [], _ => none
  | c :: cs, sep =>
    if c = sep then some ([], cs)
    else match Cut cs sep with
      | none => none
      | some (before, after) => some (c :: before, after)

/-- Go `strings.Count` for a one-character separator. -/
def Count (s : Str) (sep : Char) : Nat := (s.filter (fun c => c = sep)).length

/-- The loop of Go `strings.genSplit`: cut at most `k` times at `sep`, then append what is
left. -/
def genSplit : Nat → Str → Char → List Str
  | 0, s, _ => [s]
  | k + 1, s, sep =>
    match Cut s sep with
    | none => [s]
    | some (before, after) => before :: genSplit k after sep

/-- Go `strings.SplitN(s, sep, n)` for a one-character separator and `n ≥ 0`. -/
def SplitN (s : Str) (sep : Char) (n : Nat) : List Str :=
  if n = 0 then [] else genSplit (n - 1) s sep

/-- Go `strings.Split(s, sep)` for a one-character separator: `Count(s, sep) + 1` pieces. -/
def Split (s : Str) (sep : Char) : List Str := genSplit (Count s sep) s sep

/-- Go `strings.TrimSpace`: drop white space at both ends. -/
def TrimSpace (U : Tables) (s : Str) : Str :=
  (s.dropWhile (unicode.IsSpace U)).rdropWhile (unicode.IsSpace U)

/-- Go `strings.ToLower`. -/
def ToLower (U : Tables) (s : Str) : Str := s.map (unicode.ToLower U)

/-- Go `strings.EqualFold`: equality under simple case folding, code point by code point. -/
def EqualFold (U : Tables) (s t : Str) : Bool :=
  decide (s.map (unicode.foldKey U) = t.map (unicode.foldKey U))

end strings

/-- Value stored under key `k` in a list of entries (first hit). -/
def lookup : List (Str × Str) → Str → Option Str
  | [], _ => none
  | (k', v) :: rest, k => if k' = k then some v else lookup rest k

/-- Entries after the assignment `m[k] = v`: the value of an existing key is replaced in place,
a new key gets a new entry. -/
def store : List (Str × Str) → Str → Str → List (Str × Str)
  | [], k, v => [(k, v)]
  | (k', v') :: rest, k, v =>
    if k' = k then (k, v) :: rest else (k', v') :: store rest k v

/-- Every key of `store es k v` is `k` or a key of `es`. -/
theorem mem_keys_store (es : List (Str × Str)) (k v x : Str)
    (h : x ∈ (store es k v).map Prod.fst) : x = k ∨ x ∈ es.map Prod.fst := by
  induction es with
  | nil => simpa [store] using h
  | cons e rest ih =>
    obtain ⟨k', v'⟩ := e
    by_cases hk : k' = k
    · simp only [store, hk, if_true, List.map_cons, List.mem_cons] at h ⊢
      rcases h with h | h
      · exact Or.inl h
      · exact Or.inr (Or.inr h)
    · simp only [store, hk, if_false, List.map_cons, List.mem_cons] at h ⊢
      rcases h with h | h
      · exact Or.inr (Or.inl h)
      · rcases ih h with h | h
        · exact Or.inl h
        · exact Or.inr (Or.inr h)

/-- The assignment `m[k] = v` keeps the keys pairwise distinct. -/
theorem nodup_keys_store (es : List (Str × Str)) (k v : Str)
    (h : (es.map Prod.fst).Nodup) : ((store es k v).map Prod.fst).Nodup := by
  induction es with
  | nil => simp [store]
  | cons e rest ih =>
    obtain ⟨k', v'⟩ := e
    simp only [List.map_cons, List.nodup_cons] at h
    by_cases hk : k' = k
    · subst hk
      simpa [store] using h
    · simp only [store, hk, if_false, List.map_cons, List.nodup_cons]
      refine ⟨fun hmem => ?_, ih h.2⟩
      rcases mem_keys_store rest k v k' hmem with h' | h'
      · exact hk h'
      · exact h.1 h'

/-- A Go `map[string]string`: its entries, with pairwise distinct keys, in the order in which
`range` visits them. -/
structure GoMap where
  entries : List (Str × Str)
  nodup : (entries.map Prod.fst).Nodup

namespace GoMap

/-- Go `make(map[string]string)`. -/
def empty : GoMap := ⟨[], List.nodup_nil⟩

/-- Go `v, ok := m[k]`: `some v` when the key is present, `none` when it is not. -/
def get (m : GoMap) (k : Str) : Option Str := lookup m.entries k

/-- Go `m[k] = v`. -/
def set (m : GoMap) (k v : Str) : GoMap :=
  ⟨store m.entries k v, nodup_keys_store m.entries k v m.nodup⟩

/-- Go `len(m)`. -/
def len (m : GoMap) : Nat := m.entries.length

end GoMap

/-- Go `strings.SplitN(s, sep, 2)` returns at least one piece, so the index `pp[0]` of
`parseParameters` is in range. -/
theorem SplitN_two_pos (s : Str) (sep : Char) : 0 < (strings.SplitN s sep 2).length := by
  simp only [strings.SplitN, strings.genSplit]
  cases strings.Cut s sep <;> simp

/-- One iteration of the loop of `parseParameters` on the field `p`. The two index expressions
`pp[0]` and `pp[1]` are bounds-checked: the first by `SplitN_two_pos`, the second by the test
`len(pp) > 1` of the source. -/
def parseField (U : Tables) (parameters : GoMap) (p : Str) : GoMap :=
  let pp := strings.SplitN (strings.TrimSpace U p) '=' 2
  have h0 : 0 < pp.length := SplitN_two_pos _ _
  let key := strings.ToLower U pp[0]
  let value := if h1 : pp.length > 1 then pp[1] else []
  parameters.set key value

/-- Go `parseParameters`. -/
def parseParameters (U : Tables) (line : Str) : GoMap :=
  (strings.Split line ';').foldl (parseField U) GoMap.empty

/-- Parameter name of the field `p` of a line: the key under which the loop body of
`parseParameters` files it. -/
def fieldName (U : Tables) (p : Str) : Str :=
  have h0 : 0 < (strings.SplitN (strings.TrimSpace U p) '=' 2).length := SplitN_two_pos _ _
  strings.ToLower U (strings.SplitN (strings.TrimSpace U p) '=' 2)[0]

/-- Value of the field `p` of a line: what the loop body of `parseParameters` files under its
name. -/
def fieldValue (U : Tables) (p : Str) : Str :=
  if h1 : (strings.SplitN (strings.TrimSpace U p) '=' 2).length > 1 then
    (strings.SplitN (strings.TrimSpace U p) '=' 2)[1]
  else []

/-- Go `channelsEqual`. -/
def channelsEqual (a b : Nat) : Bool :=
  let a := if a = 0 then 1 else a
  let b := if b = 0 then 1 else b
  a = b

/-- Go `genericFMTP`. -/
structure genericFMTP where
  mimeType : Str
  clockRate : Nat
  channels : Nat
  parameters : GoMap

/-- Modelled from the spec: the H264 variant is declared outside `fmtp.go`; it is represented by
the one field that `Parse` sets. -/
structure h264FMTP where
  parameters : GoMap

/-- Modelled from the spec: the VP9 variant is declared outside `fmtp.go`; it is represented by
the one field that `Parse` sets. -/
structure vp9FMTP where
  parameters : GoMap

/-- Modelled from the spec: the AV1 variant is declared outside `fmtp.go`; it is represented by
the one field that `Parse` sets. -/
structure av1FMTP where
  parameters : GoMap

/-- Go interface `FMTP`, as the sum of the types that implement it. -/
inductive FMTP where
  | h264 (f : h264FMTP)
  | vp9 (f : vp9FMTP)
  | av1 (f : av1FMTP)
  | generic (f : genericFMTP)

/-- Go `Parse`. -/
def Parse (U : Tables) (mimeType : Str) (clockRate : Nat) (channels : Nat) (line : Str) : FMTP :=
  let parameters := parseParameters U line
  if strings.EqualFold U mimeType "video/h264".toList then
    FMTP.h264 ⟨parameters⟩
  else if strings.EqualFold U mimeType "video/vp9".toList then
    FMTP.vp9 ⟨parameters⟩
  else if strings.EqualFold U mimeType "video/av1".toList then
    FMTP.av1 ⟨parameters⟩
  else
    FMTP.generic ⟨mimeType, clockRate, channels, parameters⟩

namespace genericFMTP

/-- Go `(*genericFMTP).MimeType`. -/
def MimeType (g : genericFMTP) : Str := g.mimeType

/-- A loop `for k, v := range xs` of `Match`: `false` when the body returns `false` at some
entry, that is when `other` holds a value under `k` that is not `v` up to case. -/
def rangeAgree (U : Tables) : List (Str × Str) → GoMap → Bool
  | [], _ => true
  | (k, v) :: rest, other =>
    match other.get k with
    | some w => if !strings.EqualFold U w v then false else rangeAgree U rest other
    | none => rangeAgree U rest other

/-- Go `(*genericFMTP).Match`. -/
def Match (U : Tables) (g : genericFMTP) (b : FMTP) : Bool :=
  match b with
  | FMTP.generic c =>
    if !strings.EqualFold U g.mimeType c.MimeType then false
    else if g.clockRate ≠ c.clockRate then false
    else if !channelsEqual g.channels c.channels then false
    else if !rangeAgree U g.parameters.entries c.parameters then false
    else if !rangeAgree U c.parameters.entries g.parameters then false
    else true
  | _ => false

/-- Go `(*genericFMTP).Parameter`: the value and the presence flag; an absent key gives the zero
value of `string`. -/
def Parameter (g : genericFMTP) (key : Str) : Str × Bool :=
  match g.parameters.get key with
  | some v => (v, true)
  | none => ([], false)

end genericFMTP

/-! ## Notions used in the statements -/

/-- The two maps agree on their shared keys: under every key present in both, the two values are
equal up to case. -/
def sharedKeysAgree (U : Tables) (a b : GoMap) : Prop :=
  ∀ k v w, a.get k = some v → b.get k = some w → strings.EqualFold U v w = true

/-- The four conditions under which the generic matcher accepts. -/
def compatible (U : Tables) (g c : genericFMTP) : Prop :=
  strings.EqualFold U g.MimeType c.MimeType = true ∧ g.clockRate = c.clockRate ∧
    channelsEqual g.channels c.channels = true ∧ sharedKeysAgree U g.parameters c.parameters

/-- A generic instance with parameters `a=1`, `b=2`, visited in this order. -/
def sampleAB : genericFMTP :=
  ⟨"audio/x".toList, 8000, 1, ⟨[("a".toList, "1".toList), ("b".toList, "2".toList)], by decide⟩⟩

/-- The instance `sampleAB` with its parameters visited in the opposite order. -/
def sampleBA : genericFMTP :=
  ⟨"audio/x".toList, 8000, 1, ⟨[("b".toList, "2".toList), ("a".toList, "1".toList)], by decide⟩⟩

/-- The loop body of `parseParameters` with the index expression `pp[0]` evaluated as Go
evaluates it: `none` stands for the run-time panic on an index out of range. -/
def parseFieldChecked (U : Tables) (parameters : GoMap) (p : Str) : Option GoMap :=
  let pp := strings.SplitN (strings.TrimSpace U p) '=' 2
  match pp[0]? with
  | none => none
  | some first =>
    let key := strings.ToLower U first
    let value := if h1 : pp.length > 1 then pp[1] else []
    some (parameters.set key value)

/-- Go `parseParameters`, with `none` for a run-time panic in the loop body. -/
def parseParametersChecked (U : Tables) (line : Str) : Option GoMap :=
  (strings.Split line ';').foldlM (parseFieldChecked U) GoMap.empty

/-- Go `Parse`, with `none` for a run-time panic in `parseParameters`. -/
def ParseChecked (U : Tables) (mimeType : Str) (clockRate : Nat) (channels : Nat)
    (line : Str) : Option FMTP :=
  match parseParametersChecked U line with
  | none => none
  | some parameters =>
    if strings.EqualFold U mimeType "video/h264".toList then
      some (FMTP.h264 ⟨parameters⟩)
    else if strings.EqualFold U mimeType "video/vp9".toList then
      some (FMTP.vp9 ⟨parameters⟩)
    else if strings.EqualFold U mimeType "video/av1".toList then
      some (FMTP.av1 ⟨parameters⟩)
    else
      some (FMTP.generic ⟨mimeType, clockRate, channels, parameters⟩)

/-- The generic matcher with the second loop (over the keys of the other instance) left out. -/
def MatchFirstLoop (U : Tables) (g : genericFMTP) (b : FMTP) : Bool :=
  match b with
  | FMTP.generic c =>
    if !strings.EqualFold U g.mimeType c.MimeType then false
    else if g.clockRate ≠ c.clockRate then false
    else if !channelsEqual g.channels c.channels then false
    else if !genericFMTP.rangeAgree U g.parameters.entries c.parameters then false
    else true
  | _ => false

/-- The generic matcher with the first loop (over the keys of this instance) left out. -/
def MatchSecondLoop (U : Tables) (g : genericFMTP) (b : FMTP) : Bool :=
  match b with
  | FMTP.generic c =>
    if !strings.EqualFold U g.mimeType c.MimeType then false
    else if g.clockRate ≠ c.clockRate then false
    else if !channelsEqual g.channels c.channels then false
    else if !genericFMTP.rangeAgree U c.parameters.entries g.parameters then false
    else true
  | _ => false

/-- What the statements about lower-cased keys assume of the lower-case table above ASCII: it
yields neither `;` nor `=`, it maps no code point that is not white space to white space, and
lower-casing one of its values changes nothing. -/
def Tables.LowerRegular (U : Tables) : Prop :=
  ∀ c : Char, 127 < c.toNat →
    U.lower c ≠ ';' ∧ U.lower c ≠ '=' ∧
    (unicode.IsSpace U c = false → unicode.IsSpace U (U.lower c) = false) ∧
    unicode.ToLower U (U.lower c) = U.lower c

/-- Go `strings.Join` for a one-character separator: the line whose fields are `elems`. -/
def strings.Join : List Str → Char → Str
  | [], _ => []
  | [e], _ => e
  | e :: e' :: rest, sep => e ++ sep :: strings.Join (e' :: rest) sep

/-! ## Splitting -/

theorem Cut_eq_none_iff (s : Str) (sep : Char) : strings.Cut s sep = none ↔ sep ∉ s := by
  induction s with
  | nil => simp [strings.Cut]
  | cons c cs ih =>
    by_cases hc : c = sep
    · simp [strings.Cut, hc]
    · have hc2 : ¬ sep = c := fun h => hc h.symm
      cases hcut : strings.Cut cs sep with
      | none =>
        have := ih.mp hcut
        simp [strings.Cut, hc, hc2, hcut, this]
      | some ab =>
        have : ¬ sep ∉ cs := fun hn => by
          rw [ih.mpr hn] at hcut
          cases hcut
        simp only [not_not] at this
        simp [strings.Cut, hc, hcut, this]

theorem Cut_eq_some_iff (s : Str) (sep : Char) (a b : Str) :
    strings.Cut s sep = some (a, b) ↔ s = a ++ sep :: b ∧ sep ∉ a := by
  induction s generalizing a b with
  | nil => simp [strings.Cut]
  | cons c cs ih =>
    by_cases hc : c = sep
    · subst hc
      simp only [strings.Cut, if_true, Option.some.injEq, Prod.mk.injEq]
      constructor
      · rintro ⟨rfl, rfl⟩
        simp
      · rintro ⟨h, hn⟩
        cases a with
        | nil =>
          simp only [List.nil_append, List.cons.injEq, true_and] at h
          exact ⟨rfl, h⟩
        | cons x xs =>
          simp only [List.cons_append, List.cons.injEq] at h
          exact absurd (by rw [h.1]; exact List.mem_cons_self _ _) hn
    · have hc2 : ¬ sep = c := fun h => hc h.symm
      cases hcut : strings.Cut cs sep with
      | none =>
        simp only [strings.Cut, hc, if_false, hcut, reduceCtorEq, false_iff]
        rintro ⟨h, hn⟩
        have hmem := (Cut_eq_none_iff cs sep).mp hcut
        cases a with
        | nil =>
          simp only [List.nil_append, List.cons.injEq] at h
          exact hc h.1
        | cons x xs =>
          simp only [List.cons_append, List.cons.injEq] at h
          exact hmem (by rw [h.2]; simp)
      | some ab =>
        obtain ⟨a', b'⟩ := ab
        simp only [strings.Cut, hc, if_false, hcut, Option.some.injEq, Prod.mk.injEq]
        have ih' := (ih a' b').mp hcut
        constructor
        · rintro ⟨rfl, rfl⟩
          refine ⟨by rw [ih'.1]; simp, ?_⟩
          simp only [List.mem_cons, not_or]
          exact ⟨hc2, ih'.2⟩
        · rintro ⟨h, hn⟩
          cases a with
          | nil =>
            simp only [List.nil_append, List.cons.injEq] at h
            exact absurd h.1 hc
          | cons x xs =>
            simp only [List.cons_append, List.cons.injEq] at h
            simp only [List.mem_cons, not_or] at hn
            have := (ih xs b).mpr ⟨h.2, hn.2⟩
            rw [hcut] at this
            simp only [Option.some.injEq, Prod.mk.injEq] at this
            exact ⟨by rw [h.1, this.1], this.2⟩

theorem Split_of_not_mem (s : Str) (sep : Char) (h : sep ∉ s) : strings.Split s sep = [s] := by
  have hc : strings.Count s sep = 0 := by
    simp only [strings.Count, List.length_eq_zero, List.filter_eq_nil_iff, decide_eq_true_eq]
    rintro c hc rfl
    exact h hc
  simp [strings.Split, hc, strings.genSplit]

theorem SplitN_two_of_not_mem (t : Str) (sep : Char) (h : sep ∉ t) :
    strings.SplitN t sep 2 = [t] := by
  simp [strings.SplitN, strings.genSplit, (Cut_eq_none_iff t sep).mpr h]

theorem SplitN_two_of_cut (a b : Str) (sep : Char) (h : sep ∉ a) :
    strings.SplitN (a ++ sep :: b) sep 2 = [a, b] := by
  simp [strings.SplitN, strings.genSplit, (Cut_eq_some_iff (a ++ sep :: b) sep a b).mpr ⟨rfl, h⟩]

theorem mem_of_mem_TrimSpace (U : Tables) (s : Str) (c : Char)
    (h : c ∈ strings.TrimSpace U s) : c ∈ s :=
  (List.dropWhile_sublist _).subset ((List.rdropWhile_prefix _ _).subset h)

/-! ## The parser -/

theorem parseField_eq (U : Tables) (m : GoMap) (p : Str) :
    parseField U m p = m.set (fieldName U p) (fieldValue U p) := rfl

theorem fieldName_of_not_mem (U : Tables) (p : Str) (h : '=' ∉ strings.TrimSpace U p) :
    fieldName U p = strings.ToLower U (strings.TrimSpace U p) ∧ fieldValue U p = [] := by
  simp [fieldName, fieldValue, SplitN_two_of_not_mem _ _ h]

theorem fieldName_of_cut (U : Tables) (p a b : Str)
    (ht : strings.TrimSpace U p = a ++ '=' :: b) (ha : '=' ∉ a) :
    fieldName U p = strings.ToLower U a ∧ fieldValue U p = b := by
  simp [fieldName, fieldValue, ht, SplitN_two_of_cut a b '=' ha]

theorem parseParameters_single (U : Tables) (line : Str) (h : ';' ∉ line) :
    parseParameters U line = GoMap.empty.set (fieldName U line) (fieldValue U line) := by
  simp [parseParameters, Split_of_not_mem line ';' h, parseField_eq]

theorem entries_set_empty (k v : Str) : (GoMap.empty.set k v).entries = [(k, v)] := rfl

/-! ## Case folding -/

theorem EqualFold_refl (U : Tables) (s : Str) : strings.EqualFold U s s = true := by
  simp [strings.EqualFold]

theorem EqualFold_comm (U : Tables) (s t : Str) :
    strings.EqualFold U s t = strings.EqualFold U t s := by
  simp only [strings.EqualFold]
  exact decide_eq_decide.mpr eq_comm

/-! ## Maps -/

theorem lookup_eq_some_iff (es : List (Str × Str)) (h : (es.map Prod.fst).Nodup) (k v : Str) :
    lookup es k = some v ↔ (k, v) ∈ es := by
  induction es with
  | nil => simp [lookup]
  | cons e rest ih =>
    obtain ⟨k', v'⟩ := e
    simp only [List.map_cons, List.nodup_cons] at h
    by_cases hk : k' = k
    · subst hk
      simp only [lookup, if_true, Option.some.injEq, List.mem_cons, Prod.mk.injEq, true_and]
      constructor
      · intro hv
        exact Or.inl hv.symm
      · rintro (hv | hmem)
        · exact hv.symm
        · exact absurd (List.mem_map_of_mem Prod.fst hmem) h.1
    · simp only [lookup, hk, if_false, List.mem_cons, Prod.mk.injEq]
      rw [ih h.2]
      constructor
      · exact fun hmem => Or.inr hmem
      · rintro (⟨hk', _⟩ | hmem)
        · exact absurd hk'.symm hk
        · exact hmem

theorem get_eq_some_iff (m : GoMap) (k v : Str) : m.get k = some v ↔ (k, v) ∈ m.entries :=
  lookup_eq_some_iff m.entries m.nodup k v

theorem lookup_store (es : List (Str × Str)) (k v x : Str) :
    lookup (store es k v) x = if k = x then some v else lookup es x := by
  induction es with
  | nil => simp [store, lookup]
  | cons e rest ih =>
    obtain ⟨k', v'⟩ := e
    by_cases hk : k' = k
    · subst hk
      by_cases hx : k' = x <;> simp [store, lookup, hx]
    · by_cases hx : k' = x
      · subst hx
        have hk2 : ¬ k = k' := fun h => hk h.symm
        simp [store, lookup, hk, hk2]
      · simp [store, lookup, hk, hx, ih]

theorem get_set (m : GoMap) (k v x : Str) :
    (m.set k v).get x = if k = x then some v else m.get x :=
  lookup_store m.entries k v x

/-! ## The generic matcher -/

theorem sharedKeysAgree_comm (U : Tables) (a b : GoMap) :
    sharedKeysAgree U a b ↔ sharedKeysAgree U b a := by
  constructor <;> intro h k v w hv hw <;> rw [EqualFold_comm] <;> exact h k w v hw hv

theorem rangeAgree_iff (U : Tables) (xs : List (Str × Str)) (other : GoMap) :
    genericFMTP.rangeAgree U xs other = true ↔
      ∀ k v, (k, v) ∈ xs → ∀ w, other.get k = some w → strings.EqualFold U w v = true := by
  induction xs with
  | nil => simp [genericFMTP.rangeAgree]
  | cons e rest ih =>
    obtain ⟨k', v'⟩ := e
    cases hget : other.get k' with
    | none =>
      simp only [genericFMTP.rangeAgree, hget, ih, List.mem_cons, Prod.mk.injEq]
      constructor
      · rintro h k v (⟨rfl, rfl⟩ | hmem) w hw
        · rw [hget] at hw
          cases hw
        · exact h k v hmem w hw
      · exact fun h k v hmem w hw => h k v (Or.inr hmem) w hw
    | some w' =>
      cases hfold : strings.EqualFold U w' v' with
      | false =>
        simp only [genericFMTP.rangeAgree, hget, hfold, Bool.not_false, if_true,
          List.mem_cons, Prod.mk.injEq]
        constructor
        · intro h
          cases h
        · intro h
          have := h k' v' (Or.inl ⟨rfl, rfl⟩) w' hget
          rw [hfold] at this
          cases this
      | true =>
        simp only [genericFMTP.rangeAgree, hget, hfold, Bool.not_true, Bool.false_eq_true,
          if_false, ih, List.mem_cons, Prod.mk.injEq]
        constructor
        · rintro h k v (⟨rfl, rfl⟩ | hmem) w hw
          · rw [hget] at hw
            cases hw
            exact hfold
          · exact h k v hmem w hw
        · exact fun h k v hmem w hw => h k v (Or.inr hmem) w hw

theorem rangeAgree_entries_iff (U : Tables) (a b : GoMap) :
    genericFMTP.rangeAgree U a.entries b = true ↔ sharedKeysAgree U a b := by
  rw [rangeAgree_iff]
  constructor
  · intro h k v w hv hw
    rw [EqualFold_comm]
    exact h k v ((get_eq_some_iff a k v).mp hv) w hw
  · intro h k v hmem w hw
    rw [EqualFold_comm]
    exact h k v w ((get_eq_some_iff a k v).mpr hmem) hw

theorem Match_generic_eq (U : Tables) (g c : genericFMTP) :
    g.Match U (FMTP.generic c) =
      (strings.EqualFold U g.mimeType c.mimeType && decide (g.clockRate = c.clockRate)
        && channelsEqual g.channels c.channels
        && genericFMTP.rangeAgree U g.parameters.entries c.parameters
        && genericFMTP.rangeAgree U c.parameters.entries g.parameters) := by
  simp only [genericFMTP.Match, genericFMTP.MimeType]
  split_ifs <;> simp_all

theorem Match_iff_compatible (U : Tables) (g c : genericFMTP) :
    g.Match U (FMTP.generic c) = true ↔ compatible U g c := by
  have h1 := rangeAgree_entries_iff U g.parameters c.parameters
  have h2 := rangeAgree_entries_iff U c.parameters g.parameters
  rw [← sharedKeysAgree_comm] at h2
  rw [Match_generic_eq]
  simp only [Bool.and_eq_true, decide_eq_true_eq, h1, h2, compatible, genericFMTP.MimeType]
  tauto

theorem get_perm (a b : GoMap) (h : a.entries.Perm b.entries) (k : Str) :
    a.get k = b.get k := by
  apply Option.ext
  intro v
  simp only [Option.mem_def]
  rw [get_eq_some_iff, get_eq_some_iff]
  exact h.mem_iff

theorem compatible_comm (U : Tables) (g c : genericFMTP) :
    compatible U g c ↔ compatible U c g := by
  unfold compatible
  rw [EqualFold_comm U g.MimeType c.MimeType, sharedKeysAgree_comm U g.parameters c.parameters]
  have hch : channelsEqual g.channels c.channels = channelsEqual c.channels g.channels := by
    simp only [channelsEqual]
    exact decide_eq_decide.mpr eq_comm
  rw [hch]
  constructor <;> rintro ⟨h1, h2, h3, h4⟩ <;> exact ⟨h1, h2.symm, h3, h4⟩

theorem sharedKeysAgree_set_left (U : Tables) (a b : GoMap) (k v : Str)
    (h : b.get k = none) : sharedKeysAgree U (a.set k v) b ↔ sharedKeysAgree U a b := by
  constructor
  · intro hs x vx wx hv hw
    have hne : ¬ k = x := by
      rintro rfl
      rw [h] at hw
      cases hw
    exact hs x vx wx (by rw [get_set, if_neg hne]; exact hv) hw
  · intro hs x vx wx hv hw
    have hne : ¬ k = x := by
      rintro rfl
      rw [h] at hw
      cases hw
    rw [get_set, if_neg hne] at hv
    exact hs x vx wx hv hw

/-! ## Dispatch -/

theorem foldKey_h264_ne_vp9 (U : Tables) :
    "video/h264".toList.map (unicode.foldKey U) ≠ "video/vp9".toList.map (unicode.foldKey U) := by
  intro h
  have := congrArg List.length h
  simp at this

theorem foldKey_h264_ne_av1 (U : Tables) :
    "video/h264".toList.map (unicode.foldKey U) ≠ "video/av1".toList.map (unicode.foldKey U) := by
  intro h
  have := congrArg List.length h
  simp at this

theorem foldKey_vp9_ne_av1 (U : Tables) :
    "video/vp9".toList.map (unicode.foldKey U) ≠ "video/av1".toList.map (unicode.foldKey U) := by
  intro h
  have h6 := congrArg (fun l => l.getD 6 (Char.ofNat 0)) h
  have hv : unicode.foldKey U (Char.ofNat 118) = Char.ofNat 118 := rfl
  have ha : unicode.foldKey U (Char.ofNat 97) = Char.ofNat 97 := rfl
  have hva : unicode.foldKey U (Char.ofNat 118) = unicode.foldKey U (Char.ofNat 97) := h6
  rw [hv, ha] at hva
  revert hva
  decide

theorem EqualFold_h264_vp9 (U : Tables) (m : Str)
    (h : strings.EqualFold U m "video/h264".toList = true) :
    strings.EqualFold U m "video/vp9".toList = false := by
  simp only [strings.EqualFold, decide_eq_true_eq, decide_eq_false_iff_not] at h ⊢
  rw [h]
  exact foldKey_h264_ne_vp9 U

theorem EqualFold_h264_av1 (U : Tables) (m : Str)
    (h : strings.EqualFold U m "video/h264".toList = true) :
    strings.EqualFold U m "video/av1".toList = false := by
  simp only [strings.EqualFold, decide_eq_true_eq, decide_eq_false_iff_not] at h ⊢
  rw [h]
  exact foldKey_h264_ne_av1 U

theorem EqualFold_vp9_av1 (U : Tables) (m : Str)
    (h : strings.EqualFold U m "video/vp9".toList = true) :
    strings.EqualFold U m "video/av1".toList = false := by
  simp only [strings.EqualFold, decide_eq_true_eq, decide_eq_false_iff_not] at h ⊢
  rw [h]
  exact foldKey_vp9_ne_av1 U

theorem Parse_h264 (U : Tables) (m : Str) (r c : Nat) (line : Str)
    (h : strings.EqualFold U m "video/h264".toList = true) :
    Parse U m r c line = FMTP.h264 ⟨parseParameters U line⟩ := by
  unfold Parse
  simp only [h, if_true]

theorem Parse_vp9 (U : Tables) (m : Str) (r c : Nat) (line : Str)
    (h : strings.EqualFold U m "video/vp9".toList = true) :
    Parse U m r c line = FMTP.vp9 ⟨parseParameters U line⟩ := by
  have h1 : strings.EqualFold U m "video/h264".toList = false := by
    cases h264 : strings.EqualFold U m "video/h264".toList with
    | false => rfl
    | true => rw [EqualFold_h264_vp9 U m h264] at h; cases h
  unfold Parse
  simp only [h, h1, Bool.false_eq_true, if_false, if_true]

theorem Parse_av1 (U : Tables) (m : Str) (r c : Nat) (line : Str)
    (h : strings.EqualFold U m "video/av1".toList = true) :
    Parse U m r c line = FMTP.av1 ⟨parseParameters U line⟩ := by
  have h1 : strings.EqualFold U m "video/h264".toList = false := by
    cases h264 : strings.EqualFold U m "video/h264".toList with
    | false => rfl
    | true => rw [EqualFold_h264_av1 U m h264] at h; cases h
  have h2 : strings.EqualFold U m "video/vp9".toList = false := by
    cases hvp9 : strings.EqualFold U m "video/vp9".toList with
    | false => rfl
    | true => rw [EqualFold_vp9_av1 U m hvp9] at h; cases h
  unfold Parse
  simp only [h, h1, h2, Bool.false_eq_true, if_false, if_true]

theorem Parse_generic (U : Tables) (m : Str) (r c : Nat) (line : Str)
    (h1 : strings.EqualFold U m "video/h264".toList = false)
    (h2 : strings.EqualFold U m "video/vp9".toList = false)
    (h3 : strings.EqualFold U m "video/av1".toList = false) :
    Parse U m r c line = FMTP.generic ⟨m, r, c, parseParameters U line⟩ := by
  unfold Parse
  simp only [h1, h2, h3, Bool.false_eq_true, if_false]

theorem compatible_self (U : Tables) (m : Str) (r c : Nat) (pg pc q : GoMap)
    (hg : pg.entries.Perm q.entries) (hc : pc.entries.Perm q.entries) :
    compatible U ⟨m, r, c, pg⟩ ⟨m, r, c, pc⟩ := by
  refine ⟨EqualFold_refl U m, rfl, by simp [channelsEqual], ?_⟩
  intro k v w hv hw
  rw [get_perm pg q hg] at hv
  rw [get_perm pc q hc, hv] at hw
  cases hw
  exact EqualFold_refl U v

theorem Parse_generic_inv (U : Tables) (m : Str) (r c : Nat) (line : Str) (g : genericFMTP)
    (h : Parse U m r c line = FMTP.generic g) : g = ⟨m, r, c, parseParameters U line⟩ := by
  unfold Parse at h
  split_ifs at h
  cases h
  rfl

/-! ## Last occurrence -/

theorem get_foldl_parseField (U : Tables) (fs : List Str) (m : GoMap) (k : Str) :
    (fs.foldl (parseField U) m).get k =
      match fs.reverse.find? (fun p => decide (fieldName U p = k)) with
      | some p => some (fieldValue U p)
      | none => m.get k := by
  induction fs generalizing m with
  | nil => simp
  | cons p fs ih =>
    rw [List.foldl_cons, ih, List.reverse_cons, List.find?_append]
    cases fs.reverse.find? (fun p => decide (fieldName U p = k)) with
    | some q => simp
    | none =>
      rw [parseField_eq, get_set]
      by_cases hk : fieldName U p = k <;> simp [hk]

theorem find?_reverse_eq_some_iff (f : Str → Bool) (fs : List Str) (p : Str) :
    fs.reverse.find? f = some p ↔
      f p = true ∧ ∃ pre post, fs = pre ++ p :: post ∧ ∀ q ∈ post, f q = false := by
  rw [List.find?_eq_some]
  constructor
  · rintro ⟨hp, as, bs, hrev, has⟩
    refine ⟨hp, bs.reverse, as.reverse, ?_, ?_⟩
    · have := congrArg List.reverse hrev
      simpa using this
    · intro q hq
      have := has q (List.mem_reverse.mp hq)
      simpa using this
  · rintro ⟨hp, pre, post, hfs, hpost⟩
    refine ⟨hp, post.reverse, pre.reverse, ?_, ?_⟩
    · rw [hfs]
      simp
    · intro q hq
      have := hpost q (List.mem_reverse.mp hq)
      simp [this]

/-! ## Presence of a key -/

theorem get_parseParameters_eq_none_iff (U : Tables) (line k : Str) :
    (parseParameters U line).get k = none ↔
      ∀ p ∈ strings.Split line ';', fieldName U p ≠ k := by
  unfold parseParameters
  rw [get_foldl_parseField]
  cases hfind : (strings.Split line ';').reverse.find?
      (fun p => decide (fieldName U p = k)) with
  | some p =>
    obtain ⟨hp, pre, post, hsplit, _⟩ := (find?_reverse_eq_some_iff _ _ _).mp hfind
    simp only [reduceCtorEq, false_iff, not_forall]
    refine ⟨p, ?_, ?_⟩
    · rw [hsplit]
      simp
    · simpa using hp
  | none =>
    have hall := List.find?_eq_none.mp hfind
    simp only [GoMap.get, GoMap.empty, lookup, true_iff]
    intro p hp
    have := hall p (List.mem_reverse.mpr hp)
    simpa using this

theorem Parameter_eq (g : genericFMTP) (key : Str) :
    g.Parameter key = ((g.parameters.get key).getD [], (g.parameters.get key).isSome) := by
  unfold genericFMTP.Parameter
  cases g.parameters.get key <;> rfl

theorem foldl_parseField_congr (U : Tables) (fs fs' : List Str) (m : GoMap)
    (h : fs'.map (fun p => (fieldName U p, fieldValue U p)) =
      fs.map (fun p => (fieldName U p, fieldValue U p))) :
    fs'.foldl (parseField U) m = fs.foldl (parseField U) m := by
  have key : ∀ (l : List Str) (m : GoMap), l.foldl (parseField U) m =
      (l.map (fun p => (fieldName U p, fieldValue U p))).foldl
        (fun acc e => acc.set e.1 e.2) m := by
    intro l
    induction l with
    | nil => intro m; rfl
    | cons p l ih =>
      intro m
      simp only [List.foldl_cons, List.map_cons]
      rw [ih, parseField_eq]
  rw [key, key, h]

/-! ## Totality -/

theorem parseFieldChecked_eq (U : Tables) (m : GoMap) (p : Str) :
    parseFieldChecked U m p = some (parseField U m p) := by
  have h0 := SplitN_two_pos (strings.TrimSpace U p) '='
  unfold parseFieldChecked parseField
  simp only [List.getElem?_eq_getElem h0]

theorem foldlM_parseFieldChecked (U : Tables) (fs : List Str) (m : GoMap) :
    fs.foldlM (parseFieldChecked U) m = some (fs.foldl (parseField U) m) := by
  induction fs generalizing m with
  | nil => rfl
  | cons p fs ih =>
    simp only [List.foldlM_cons, List.foldl_cons, parseFieldChecked_eq]
    exact ih (parseField U m p)

theorem parseParametersChecked_eq (U : Tables) (line : Str) :
    parseParametersChecked U line = some (parseParameters U line) :=
  foldlM_parseFieldChecked U _ _

theorem genSplit_length_pos (k : Nat) (s : Str) (sep : Char) :
    0 < (strings.genSplit k s sep).length := by
  cases k with
  | zero => simp [strings.genSplit]
  | succ k =>
    simp only [strings.genSplit]
    cases strings.Cut s sep with
    | none => simp
    | some ab => simp

/-! ## The two loops -/

theorem rangeAgree_swap (U : Tables) (a b : GoMap) :
    genericFMTP.rangeAgree U a.entries b = genericFMTP.rangeAgree U b.entries a := by
  rw [Bool.eq_iff_iff, rangeAgree_entries_iff, rangeAgree_entries_iff]
  exact sharedKeysAgree_comm U a b

/-! ## Counting fields and entries -/

theorem Count_of_not_mem (s : Str) (sep : Char) (h : sep ∉ s) : strings.Count s sep = 0 := by
  simp only [strings.Count, List.length_eq_zero, List.filter_eq_nil_iff, decide_eq_true_eq]
  rintro c hc rfl
  exact h hc

theorem Count_append_sep (a b : Str) (sep : Char) (h : sep ∉ a) :
    strings.Count (a ++ sep :: b) sep = strings.Count b sep + 1 := by
  have ha := Count_of_not_mem a sep h
  simp only [strings.Count] at ha ⊢
  simp [List.filter_append, ha]

theorem genSplit_length (k : Nat) (s : Str) (sep : Char) :
    (strings.genSplit k s sep).length = min k (strings.Count s sep) + 1 := by
  induction k generalizing s with
  | zero => simp [strings.genSplit]
  | succ k ih =>
    cases hcut : strings.Cut s sep with
    | none =>
      have := Count_of_not_mem s sep ((Cut_eq_none_iff s sep).mp hcut)
      simp [strings.genSplit, hcut, this]
    | some ab =>
      obtain ⟨a, b⟩ := ab
      obtain ⟨hs, ha⟩ := (Cut_eq_some_iff s sep a b).mp hcut
      simp only [strings.genSplit, hcut, List.length_cons, ih b]
      rw [hs, Count_append_sep a b sep ha]
      omega

theorem Split_length (s : Str) (sep : Char) :
    (strings.Split s sep).length = strings.Count s sep + 1 := by
  simp [strings.Split, genSplit_length]

theorem mem_keys_store_iff (es : List (Str × Str)) (k v x : Str) :
    x ∈ (store es k v).map Prod.fst ↔ x = k ∨ x ∈ es.map Prod.fst := by
  refine ⟨mem_keys_store es k v x, ?_⟩
  induction es with
  | nil =>
    intro h
    simpa [store] using h
  | cons e rest ih =>
    obtain ⟨k', v'⟩ := e
    by_cases hk : k' = k
    · subst hk
      simp only [store, if_true, List.map_cons, List.mem_cons]
      rintro (h | h | h)
      · exact Or.inl h
      · exact Or.inl h
      · exact Or.inr h
    · simp only [store, hk, if_false, List.map_cons, List.mem_cons]
      rintro (h | h | h)
      · exact Or.inr (ih (Or.inl h))
      · exact Or.inl h
      · exact Or.inr (ih (Or.inr h))

theorem length_store (es : List (Str × Str)) (k v : Str) :
    (store es k v).length = if k ∈ es.map Prod.fst then es.length else es.length + 1 := by
  induction es with
  | nil => simp [store]
  | cons e rest ih =>
    obtain ⟨k', v'⟩ := e
    by_cases hk : k' = k
    · subst hk
      simp [store]
    · have hk2 : ¬ k = k' := fun h => hk h.symm
      simp only [store, hk, if_false, List.length_cons, ih, List.map_cons, List.mem_cons, hk2,
        false_or]
      split_ifs <;> rfl

theorem len_foldl_parseField (U : Tables) (fs : List Str) (m : GoMap) :
    m.len ≤ (fs.foldl (parseField U) m).len ∧
    (fs.foldl (parseField U) m).len ≤ m.len + fs.length ∧
    (fs ≠ [] → 1 ≤ (fs.foldl (parseField U) m).len) ∧
    ((fs.map (fieldName U)).Nodup →
      (∀ p ∈ fs, fieldName U p ∉ m.entries.map Prod.fst) →
      (fs.foldl (parseField U) m).len = m.len + fs.length) := by
  induction fs generalizing m with
  | nil => simp
  | cons p fs ih =>
    obtain ⟨ih1, ih2, _, ih4⟩ := ih (parseField U m p)
    have hlen : (parseField U m p).len =
        if fieldName U p ∈ m.entries.map Prod.fst then m.len else m.len + 1 := by
      rw [parseField_eq]
      exact length_store m.entries _ _
    have hge : m.len ≤ (parseField U m p).len := by
      rw [hlen]
      split_ifs <;> omega
    have hle : (parseField U m p).len ≤ m.len + 1 := by
      rw [hlen]
      split_ifs <;> omega
    have hpos : 1 ≤ (parseField U m p).len := by
      rw [parseField_eq]
      simp only [GoMap.len, GoMap.set]
      cases hm : m.entries with
      | nil => simp [store]
      | cons e rest =>
        obtain ⟨k', v'⟩ := e
        simp only [store]
        split_ifs <;> simp
    simp only [List.foldl_cons, List.length_cons]
    refine ⟨by omega, by omega, fun _ => by omega, ?_⟩
    intro hnodup hfresh
    simp only [List.map_cons, List.nodup_cons] at hnodup
    have hp : fieldName U p ∉ m.entries.map Prod.fst := hfresh p (List.mem_cons_self _ _)
    have hlen1 : (parseField U m p).len = m.len + 1 := by
      rw [hlen, if_neg hp]
    rw [ih4 hnodup.2 ?_, hlen1]
    · omega
    · intro q hq hmem
      rw [parseField_eq] at hmem
      rcases (mem_keys_store_iff m.entries _ _ _).mp hmem with h | h
      · exact hnodup.1 (by rw [← h]; exact List.mem_map_of_mem _ hq)
      · exact hfresh q (List.mem_cons_of_mem _ hq) h

/-! ## Shape of keys and values -/

set_option maxRecDepth 100000 in
theorem asciiLower_facts : ∀ n, n < 128 →
    ((unicode.asciiLower (Char.ofNat n)).toNat ≤ 127 ∧
    unicode.asciiLower (unicode.asciiLower (Char.ofNat n)) = unicode.asciiLower (Char.ofNat n) ∧
    (unicode.asciiLower (Char.ofNat n) = ';' → Char.ofNat n = ';') ∧
    (unicode.asciiLower (Char.ofNat n) = '=' → Char.ofNat n = '=') ∧
    (unicode.IsSpace asciiTables (unicode.asciiLower (Char.ofNat n)) =
      unicode.IsSpace asciiTables (Char.ofNat n))) := by
  decide

theorem asciiLower_char_facts (c : Char) (h : c.toNat ≤ 127) :
    (unicode.asciiLower c).toNat ≤ 127 ∧
    unicode.asciiLower (unicode.asciiLower c) = unicode.asciiLower c ∧
    (unicode.asciiLower c = ';' → c = ';') ∧
    (unicode.asciiLower c = '=' → c = '=') ∧
    (unicode.IsSpace asciiTables (unicode.asciiLower c) = unicode.IsSpace asciiTables c) := by
  have := asciiLower_facts c.toNat (by omega)
  rwa [Char.ofNat_toNat] at this

theorem IsSpace_latin (U : Tables) (c : Char) (h : c.toNat ≤ 255) :
    unicode.IsSpace U c = unicode.IsSpace asciiTables c := by
  simp only [unicode.IsSpace, h, if_true]

theorem IsSpace_semicolon (U : Tables) : unicode.IsSpace U ';' = false := rfl

theorem ToLower_char_facts (U : Tables) (hU : U.LowerRegular) (c : Char) :
    (unicode.ToLower U c = ';' → c = ';') ∧
    (unicode.ToLower U c = '=' → c = '=') ∧
    (unicode.IsSpace U c = false → unicode.IsSpace U (unicode.ToLower U c) = false) ∧
    unicode.ToLower U (unicode.ToLower U c) = unicode.ToLower U c := by
  by_cases h : c.toNat ≤ 127
  · obtain ⟨h1, h2, h3, h4, h5⟩ := asciiLower_char_facts c h
    have hl : unicode.ToLower U c = unicode.asciiLower c := by
      simp only [unicode.ToLower, h, if_true]
    rw [hl]
    refine ⟨h3, h4, ?_, ?_⟩
    · intro hs
      rw [IsSpace_latin U _ (by omega), h5, ← IsSpace_latin U c (by omega)]
      exact hs
    · simp only [unicode.ToLower, h1, if_true]
      exact h2
  · have hl : unicode.ToLower U c = U.lower c := by
      simp only [unicode.ToLower, h, if_false]
    obtain ⟨h1, h2, h3, h4⟩ := hU c (by omega)
    rw [hl]
    exact ⟨fun e => absurd e h1, fun e => absurd e h2, h3, h4⟩

theorem ToLower_shape (U : Tables) (hU : U.LowerRegular) (x : Str)
    (h1 : ';' ∉ x) (h2 : '=' ∉ x)
    (h3 : ∀ c, x.head? = some c → unicode.IsSpace U c = false) :
    ';' ∉ strings.ToLower U x ∧ '=' ∉ strings.ToLower U x ∧
    (∀ c, (strings.ToLower U x).head? = some c → unicode.IsSpace U c = false) ∧
    strings.ToLower U (strings.ToLower U x) = strings.ToLower U x := by
  refine ⟨?_, ?_, ?_, ?_⟩
  · intro hmem
    obtain ⟨c, hc, hcl⟩ := List.mem_map.mp hmem
    have := (ToLower_char_facts U hU c).1 hcl
    exact h1 (this ▸ hc)
  · intro hmem
    obtain ⟨c, hc, hcl⟩ := List.mem_map.mp hmem
    have := (ToLower_char_facts U hU c).2.1 hcl
    exact h2 (this ▸ hc)
  · intro c hc
    cases x with
    | nil => simp [strings.ToLower] at hc
    | cons a rest =>
      simp only [strings.ToLower, List.map_cons, List.head?_cons, Option.some.injEq] at hc
      rw [← hc]
      exact (ToLower_char_facts U hU a).2.2.1 (h3 a rfl)
  · simp only [strings.ToLower, List.map_map]
    apply List.map_congr_left
    intro c _
    exact (ToLower_char_facts U hU c).2.2.2

theorem not_mem_of_mem_genSplit (k : Nat) (s : Str) (sep : Char)
    (hk : strings.Count s sep ≤ k) (p : Str) (hp : p ∈ strings.genSplit k s sep) :
    sep ∉ p := by
  induction k generalizing s with
  | zero =>
    have hc : strings.Count s sep = 0 := by omega
    simp only [strings.genSplit, List.mem_singleton] at hp
    subst hp
    intro hmem
    have : 0 < strings.Count p sep := by
      simp only [strings.Count]
      exact List.length_pos_of_mem (List.mem_filter.mpr ⟨hmem, by simp⟩)
    omega
  | succ k ih =>
    cases hcut : strings.Cut s sep with
    | none =>
      simp only [strings.genSplit, hcut, List.mem_singleton] at hp
      subst hp
      exact (Cut_eq_none_iff p sep).mp hcut
    | some ab =>
      obtain ⟨a, b⟩ := ab
      obtain ⟨hs, ha⟩ := (Cut_eq_some_iff s sep a b).mp hcut
      simp only [strings.genSplit, hcut, List.mem_cons] at hp
      rcases hp with hp | hp
      · subst hp
        exact ha
      · rw [hs, Count_append_sep a b sep ha] at hk
        exact ih b (by omega) hp

theorem not_mem_of_mem_Split (s : Str) (sep : Char) (p : Str)
    (hp : p ∈ strings.Split s sep) : sep ∉ p :=
  not_mem_of_mem_genSplit _ s sep (Nat.le_refl _) p hp

theorem mem_entries_parseParameters (U : Tables) (line k v : Str)
    (h : (k, v) ∈ (parseParameters U line).entries) :
    ∃ p ∈ strings.Split line ';', fieldName U p = k ∧ fieldValue U p = v := by
  have hget := (get_eq_some_iff _ k v).mpr h
  unfold parseParameters at hget
  rw [get_foldl_parseField] at hget
  cases hfind : (strings.Split line ';').reverse.find?
      (fun p => decide (fieldName U p = k)) with
  | none =>
    rw [hfind] at hget
    cases hget
  | some p =>
    rw [hfind] at hget
    obtain ⟨hp, pre, post, hsplit, _⟩ := (find?_reverse_eq_some_iff _ _ _).mp hfind
    refine ⟨p, ?_, of_decide_eq_true hp, ?_⟩
    · rw [hsplit]
      simp
    · simpa using hget

theorem TrimSpace_head (U : Tables) (p : Str) (c : Char)
    (h : (strings.TrimSpace U p).head? = some c) : unicode.IsSpace U c = false := by
  have hpre : strings.TrimSpace U p <+: p.dropWhile (unicode.IsSpace U) :=
    List.rdropWhile_prefix _ _
  obtain ⟨r, hr⟩ := hpre
  have hd := List.head?_dropWhile_not (unicode.IsSpace U) p
  rw [← hr] at hd
  cases ht : strings.TrimSpace U p with
  | nil =>
    rw [ht] at h
    cases h
  | cons a rest =>
    rw [ht] at h hd
    simp only [List.head?_cons, Option.some.injEq] at h
    subst h
    simpa using hd

theorem TrimSpace_getLast (U : Tables) (p : Str) (c : Char)
    (h : (strings.TrimSpace U p).getLast? = some c) : unicode.IsSpace U c = false := by
  have hne : strings.TrimSpace U p ≠ [] := by
    intro h0
    rw [h0] at h
    cases h
  have hlast := List.rdropWhile_last_not (unicode.IsSpace U)
    (p.dropWhile (unicode.IsSpace U)) hne
  have hc : (strings.TrimSpace U p).getLast hne = c := by
    rw [List.getLast?_eq_getLast _ hne] at h
    exact Option.some.inj h
  simp only [strings.TrimSpace] at hc
  rw [hc] at hlast
  simpa using hlast

/-! ## Lines and their fields -/

theorem Split_append_sep (f rest : Str) (sep : Char) (h : sep ∉ f) :
    strings.Split (f ++ sep :: rest) sep = f :: strings.Split rest sep := by
  simp only [strings.Split, Count_append_sep f rest sep h, strings.genSplit,
    (Cut_eq_some_iff (f ++ sep :: rest) sep f rest).mpr ⟨rfl, h⟩]

theorem Join_cons (e : Str) (es : List Str) (sep : Char) (h : es ≠ []) :
    strings.Join (e :: es) sep = e ++ sep :: strings.Join es sep := by
  cases es with
  | nil => exact absurd rfl h
  | cons e' rest => rfl

theorem Split_Join (fs : List Str) (sep : Char) (hne : fs ≠ [])
    (h : ∀ f ∈ fs, sep ∉ f) : strings.Split (strings.Join fs sep) sep = fs := by
  induction fs with
  | nil => exact absurd rfl hne
  | cons f rest ih =>
    cases rest with
    | nil =>
      simp only [strings.Join]
      exact Split_of_not_mem f sep (h f (List.mem_cons_self _ _))
    | cons g rest =>
      rw [Join_cons f (g :: rest) sep (by simp),
        Split_append_sep f _ sep (h f (List.mem_cons_self _ _)),
        ih (by simp) (fun x hx => h x (List.mem_cons_of_mem _ hx))]

theorem Join_genSplit (k : Nat) (s : Str) (sep : Char) :
    strings.Join (strings.genSplit k s sep) sep = s := by
  induction k generalizing s with
  | zero => rfl
  | succ k ih =>
    cases hcut : strings.Cut s sep with
    | none => simp [strings.genSplit, hcut, strings.Join]
    | some ab =>
      obtain ⟨a, b⟩ := ab
      obtain ⟨hs, _⟩ := (Cut_eq_some_iff s sep a b).mp hcut
      simp only [strings.genSplit, hcut]
      rw [Join_cons a _ sep (List.ne_nil_of_length_pos (genSplit_length_pos k b sep)), ih b, hs]

theorem dropWhile_append_all (P : Char → Bool) (ws x : Str) (h : ∀ c ∈ ws, P c = true) :
    (ws ++ x).dropWhile P = x.dropWhile P := by
  induction ws with
  | nil => rfl
  | cons w ws ih =>
    have hw : P w = true := h w (List.mem_cons_self _ _)
    simp only [List.cons_append, List.dropWhile_cons, hw, if_true]
    exact ih (fun c hc => h c (List.mem_cons_of_mem _ hc))

theorem rdropWhile_append_all (P : Char → Bool) (x ws : Str) (h : ∀ c ∈ ws, P c = true) :
    (x ++ ws).rdropWhile P = x.rdropWhile P := by
  simp only [List.rdropWhile, List.reverse_append]
  rw [dropWhile_append_all P ws.reverse x.reverse (fun c hc => h c (List.mem_reverse.mp hc))]

theorem rdropWhile_dropWhile_append_all (P : Char → Bool) (x ws : Str)
    (h : ∀ c ∈ ws, P c = true) :
    ((x ++ ws).dropWhile P).rdropWhile P = (x.dropWhile P).rdropWhile P := by
  induction x with
  | nil =>
    have hall : ∀ c ∈ ws, P c = true := h
    have h1 : ws.dropWhile P = [] := by
      simpa [List.dropWhile_eq_nil_iff] using hall
    simp [h1, List.rdropWhile]
  | cons a x ih =>
    by_cases ha : P a = true
    · simp only [List.cons_append, List.dropWhile_cons, ha, if_true]
      exact ih
    · simp only [List.cons_append, List.dropWhile_cons, ha, if_false]
      exact rdropWhile_append_all P (a :: x) ws h

theorem TrimSpace_pad (U : Tables) (f ws1 ws2 : Str)
    (h1 : ∀ c ∈ ws1, unicode.IsSpace U c = true) (h2 : ∀ c ∈ ws2, unicode.IsSpace U c = true) :
    strings.TrimSpace U (ws1 ++ f ++ ws2) = strings.TrimSpace U f := by
  simp only [strings.TrimSpace, List.append_assoc]
  rw [dropWhile_append_all _ ws1 (f ++ ws2) h1]
  exact rdropWhile_dropWhile_append_all _ f ws2 h2

theorem field_congr (U : Tables) (p q : Str)
    (h : strings.TrimSpace U p = strings.TrimSpace U q) :
    (fieldName U p, fieldValue U p) = (fieldName U q, fieldValue U q) := by
  cases hcut : strings.Cut (strings.TrimSpace U q) '=' with
  | none =>
    have hq := (Cut_eq_none_iff _ _).mp hcut
    have hp : '=' ∉ strings.TrimSpace U p := by rw [h]; exact hq
    obtain ⟨n1, v1⟩ := fieldName_of_not_mem U p hp
    obtain ⟨n2, v2⟩ := fieldName_of_not_mem U q hq
    rw [n1, v1, n2, v2, h]
  | some ab =>
    obtain ⟨a, b⟩ := ab
    obtain ⟨ht, ha⟩ := (Cut_eq_some_iff _ _ a b).mp hcut
    obtain ⟨n1, v1⟩ := fieldName_of_cut U p a b (h.trans ht) ha
    obtain ⟨n2, v2⟩ := fieldName_of_cut U q a b ht ha
    rw [n1, v1, n2, v2]

/-- The ASCII tables are regular. -/
theorem asciiTables_lowerRegular : asciiTables.LowerRegular := by
  intro c hc
  have h127 : ¬ c.toNat ≤ 127 := by omega
  refine ⟨?_, ?_, fun h => h, ?_⟩
  · intro h
    have : c = ';' := h
    rw [this] at hc
    revert hc
    decide
  · intro h
    have : c = '=' := h
    rw [this] at hc
    revert hc
    decide
  · show unicode.ToLower asciiTables c = c
    simp only [unicode.ToLower, h127, if_false]
    rfl

/-! ## Claims -/

/-- C1: on two generic instances `Match` returns true exactly when the MIME types are equal up
to case, the clock rates are equal, `channelsEqual` holds of the channel counts, and under every
key present in both parameter maps the two values are equal up to case. A key that only one side
holds does not affect the result (assigning to it leaves the result unchanged), and neither does
the order in which the two maps are iterated. -/
theorem generic_match_iff (U : Tables) (g c : genericFMTP) :
    (g.Match U (FMTP.generic c) = true ↔
      (strings.EqualFold U g.MimeType c.MimeType = true ∧ g.clockRate = c.clockRate ∧
        channelsEqual g.channels c.channels = true ∧
        ∀ k v w, g.parameters.get k = some v → c.parameters.get k = some w →
          strings.EqualFold U v w = true)) ∧
    (∀ k v, c.parameters.get k = none →
      genericFMTP.Match U ⟨g.mimeType, g.clockRate, g.channels, g.parameters.set k v⟩
        (FMTP.generic c) = g.Match U (FMTP.generic c)) ∧
    (∀ k v, g.parameters.get k = none →
      g.Match U (FMTP.generic ⟨c.mimeType, c.clockRate, c.channels, c.parameters.set k v⟩) =
        g.Match U (FMTP.generic c)) ∧
    (∀ pg pc : GoMap, pg.entries.Perm g.parameters.entries →
      pc.entries.Perm c.parameters.entries →
      genericFMTP.Match U ⟨g.mimeType, g.clockRate, g.channels, pg⟩
        (FMTP.generic ⟨c.mimeType, c.clockRate, c.channels, pc⟩) = g.Match U (FMTP.generic c)) := by
  refine ⟨Match_iff_compatible U g c, ?_, ?_, ?_⟩
  · intro k v hk
    rw [Bool.eq_iff_iff, Match_iff_compatible, Match_iff_compatible]
    simp only [compatible, genericFMTP.MimeType]
    rw [sharedKeysAgree_set_left U g.parameters c.parameters k v hk]
  · intro k v hk
    rw [Bool.eq_iff_iff, Match_iff_compatible, Match_iff_compatible]
    simp only [compatible, genericFMTP.MimeType]
    rw [sharedKeysAgree_comm U g.parameters (c.parameters.set k v),
      sharedKeysAgree_set_left U c.parameters g.parameters k v hk,
      sharedKeysAgree_comm U c.parameters g.parameters]
  · intro pg pc hg hc
    rw [Bool.eq_iff_iff, Match_iff_compatible, Match_iff_compatible]
    simp only [compatible, genericFMTP.MimeType, sharedKeysAgree, get_perm pg g.parameters hg,
      get_perm pc c.parameters hc]

/-- C1, at a concrete input: visiting the parameters of both sides in the opposite order gives
the same result. -/
theorem generic_match_iff_witness :
    sampleBA.parameters.entries.Perm sampleAB.parameters.entries ∧
      genericFMTP.Match asciiTables sampleBA (FMTP.generic sampleBA) =
        genericFMTP.Match asciiTables sampleAB (FMTP.generic sampleAB) :=
  ⟨by decide, (generic_match_iff asciiTables sampleAB sampleAB).2.2.2 sampleBA.parameters
    sampleBA.parameters (by decide) (by decide)⟩

/-- C2: `Match` is symmetric on the generic variant. -/
theorem generic_match_symm (U : Tables) (g c : genericFMTP) :
    g.Match U (FMTP.generic c) = c.Match U (FMTP.generic g) := by
  rw [Bool.eq_iff_iff, Match_iff_compatible, Match_iff_compatible]
  exact compatible_comm U g c

/-- C3: for a MIME type that dispatches to the generic variant, the instance parsed from any
line matches the instance parsed from the same arguments, in whatever order the two parameter
maps are iterated. -/
theorem Parse_match_self (U : Tables) (m : Str) (r c : Nat) (line : Str)
    (h1 : strings.EqualFold U m "video/h264".toList = false)
    (h2 : strings.EqualFold U m "video/vp9".toList = false)
    (h3 : strings.EqualFold U m "video/av1".toList = false) :
    ∃ g, Parse U m r c line = FMTP.generic g ∧ g.Match U (Parse U m r c line) = true ∧
      ∀ pg pc : GoMap, pg.entries.Perm g.parameters.entries →
        pc.entries.Perm g.parameters.entries →
        genericFMTP.Match U ⟨g.mimeType, g.clockRate, g.channels, pg⟩
          (FMTP.generic ⟨g.mimeType, g.clockRate, g.channels, pc⟩) = true := by
  refine ⟨⟨m, r, c, parseParameters U line⟩, Parse_generic U m r c line h1 h2 h3, ?_, ?_⟩
  · rw [Parse_generic U m r c line h1 h2 h3, Match_iff_compatible]
    exact compatible_self U m r c _ _ _ (List.Perm.refl _) (List.Perm.refl _)
  · intro pg pc hg hc
    rw [Match_iff_compatible]
    exact compatible_self U m r c pg pc _ hg hc

/-- C3, at a line with a repeated key and empty fields. -/
theorem Parse_match_self_witness :
    strings.EqualFold asciiTables "audio/x".toList "video/h264".toList = false ∧
    strings.EqualFold asciiTables "audio/x".toList "video/vp9".toList = false ∧
    strings.EqualFold asciiTables "audio/x".toList "video/av1".toList = false ∧
    ∃ g, Parse asciiTables "audio/x".toList 8000 2 "a=1;A=2;;b".toList = FMTP.generic g ∧
      g.Match asciiTables (Parse asciiTables "audio/x".toList 8000 2 "a=1;A=2;;b".toList) = true ∧
      ∀ pg pc : GoMap, pg.entries.Perm g.parameters.entries →
        pc.entries.Perm g.parameters.entries →
        genericFMTP.Match asciiTables ⟨g.mimeType, g.clockRate, g.channels, pg⟩
          (FMTP.generic ⟨g.mimeType, g.clockRate, g.channels, pc⟩) = true :=
  ⟨by decide, by decide, by decide,
    Parse_match_self asciiTables "audio/x".toList 8000 2 "a=1;A=2;;b".toList
      (by decide) (by decide) (by decide)⟩

/-- C4, as stated, fails at a string with a leading blank: the line ` a` has neither `;` nor
`=`, and its single entry has the key `a`, not the lower-cased line. -/
theorem parseParameters_bare_counterexample :
    ';' ∉ " a".toList ∧ '=' ∉ " a".toList ∧
      (parseParameters asciiTables " a".toList).entries ≠
        [(strings.ToLower asciiTables " a".toList, [])] := by
  decide

/-- C4, amended: for a string `s` with neither `;` nor `=`, `parseParameters s` has exactly one
entry, whose key is the lower-cased form of `s` with the white space at its two ends removed and
whose value is empty; the key is the lower-cased `s` itself when `s` has no white space at its
ends. -/
theorem parseParameters_bare (U : Tables) (s : Str) (h1 : ';' ∉ s) (h2 : '=' ∉ s) :
    (parseParameters U s).entries = [(strings.ToLower U (strings.TrimSpace U s), [])] ∧
      (strings.TrimSpace U s = s →
        (parseParameters U s).entries = [(strings.ToLower U s, [])]) := by
  have h3 : '=' ∉ strings.TrimSpace U s := fun h => h2 (mem_of_mem_TrimSpace U s _ h)
  have key : (parseParameters U s).entries =
      [(strings.ToLower U (strings.TrimSpace U s), [])] := by
    rw [parseParameters_single U s h1, entries_set_empty]
    simp [fieldName, fieldValue, SplitN_two_of_not_mem _ _ h3]
  refine ⟨key, fun ht => ?_⟩
  rw [key, ht]

/-- C4 amended, at the line ` Abc `. -/
theorem parseParameters_bare_witness :
    ';' ∉ " Abc ".toList ∧ '=' ∉ " Abc ".toList ∧
      (parseParameters asciiTables " Abc ".toList).entries = [("abc".toList, [])] :=
  ⟨by decide, by decide,
    (parseParameters_bare asciiTables " Abc ".toList (by decide) (by decide)).1⟩

/-- C5: a key `k` holds the value `v` in `parseParameters line` exactly when the last field of
the line (split at `;`) whose name is `k` has the value `v`. The name of a field is the
lower-cased part of the trimmed field before its first `=` (the whole trimmed field when it has
no `=`) and its value is the part after that `=` (empty when it has none). In particular
`a=1;A=2` parses to the single entry `a ↦ 2`. -/
theorem parseParameters_last_wins (U : Tables) (line k v : Str) :
    ((parseParameters U line).get k = some v ↔
      ∃ pre p post, strings.Split line ';' = pre ++ p :: post ∧ fieldName U p = k ∧
        (∀ q ∈ post, fieldName U q ≠ k) ∧ fieldValue U p = v) ∧
    (∀ p, '=' ∉ strings.TrimSpace U p →
      fieldName U p = strings.ToLower U (strings.TrimSpace U p) ∧ fieldValue U p = []) ∧
    (∀ p a b, strings.TrimSpace U p = a ++ '=' :: b → '=' ∉ a →
      fieldName U p = strings.ToLower U a ∧ fieldValue U p = b) ∧
    (parseParameters asciiTables "a=1;A=2".toList).entries = [("a".toList, "2".toList)] := by
  refine ⟨?_, fieldName_of_not_mem U, fieldName_of_cut U, by decide⟩
  unfold parseParameters
  rw [get_foldl_parseField]
  constructor
  · intro h
    cases hfind : (strings.Split line ';').reverse.find?
        (fun p => decide (fieldName U p = k)) with
    | none =>
      rw [hfind] at h
      cases h
    | some p =>
      rw [hfind] at h
      obtain ⟨hp, pre, post, hsplit, hpost⟩ := (find?_reverse_eq_some_iff _ _ _).mp hfind
      refine ⟨pre, p, post, hsplit, of_decide_eq_true hp, ?_, ?_⟩
      · intro q hq
        exact of_decide_eq_false (hpost q hq)
      · simpa using h
  · rintro ⟨pre, p, post, hsplit, hp, hpost, hv⟩
    have hfind : (strings.Split line ';').reverse.find?
        (fun p => decide (fieldName U p = k)) = some p :=
      (find?_reverse_eq_some_iff _ _ _).mpr
        ⟨decide_eq_true hp, pre, post, hsplit, fun q hq => decide_eq_false (hpost q hq)⟩
    rw [hfind]
    exact congrArg some hv

/-- C5, at the line `a=1;A=2` and the key `a`: the second field is the last one named `a`. -/
theorem parseParameters_last_wins_witness :
    (parseParameters asciiTables "a=1;A=2".toList).get "a".toList = some "2".toList :=
  (parseParameters_last_wins asciiTables "a=1;A=2".toList "a".toList "2".toList).1.mpr
    ⟨["a=1".toList], "A=2".toList, [], by decide, by decide, by decide, by decide⟩

/-- C6: for a line without `;` whose trimmed form contains `=`, `parseParameters` yields the
single entry whose key is the lower-cased part of the trimmed line before its first `=` and whose
value is the part after that `=`, unchanged; in particular `a=b=c` parses to `a ↦ b=c`. -/
theorem parseParameters_first_eq (U : Tables) (line : Str) (h1 : ';' ∉ line)
    (h2 : '=' ∈ strings.TrimSpace U line) :
    (∃ a b, strings.TrimSpace U line = a ++ '=' :: b ∧ '=' ∉ a ∧
      (parseParameters U line).entries = [(strings.ToLower U a, b)]) ∧
    (∀ a b, strings.TrimSpace U line = a ++ '=' :: b → '=' ∉ a →
      (parseParameters U line).entries = [(strings.ToLower U a, b)]) ∧
    (parseParameters asciiTables "a=b=c".toList).entries = [("a".toList, "b=c".toList)] := by
  have key : ∀ a b, strings.TrimSpace U line = a ++ '=' :: b → '=' ∉ a →
      (parseParameters U line).entries = [(strings.ToLower U a, b)] := by
    intro a b ht ha
    rw [parseParameters_single U line h1, entries_set_empty]
    simp [fieldName, fieldValue, ht, SplitN_two_of_cut a b '=' ha]
  refine ⟨?_, key, by decide⟩
  cases hcut : strings.Cut (strings.TrimSpace U line) '=' with
  | none => exact absurd h2 ((Cut_eq_none_iff _ _).mp hcut)
  | some ab =>
    obtain ⟨a, b⟩ := ab
    obtain ⟨ht, ha⟩ := (Cut_eq_some_iff _ _ a b).mp hcut
    exact ⟨a, b, ht, ha, key a b ht ha⟩

/-- C6, at the line ` Key= v=W `: the key is lower-cased, the value keeps its blank, its case
and its second `=`. -/
theorem parseParameters_first_eq_witness :
    ';' ∉ " Key= v=W ".toList ∧
    '=' ∈ strings.TrimSpace asciiTables " Key= v=W ".toList ∧
    (parseParameters asciiTables " Key= v=W ".toList).entries = [("key".toList, " v=W".toList)] :=
  ⟨by decide, by decide,
    (parseParameters_first_eq asciiTables " Key= v=W ".toList (by decide) (by decide)).2.1
      "Key".toList " v=W".toList (by decide) (by decide)⟩

/-- C7: the empty line parses to the single entry with the empty key and the empty value, so on
a generic instance parsed from the empty line `Parameter` of the empty key returns the empty
value with the presence flag set. -/
theorem parseParameters_empty (U : Tables) :
    (parseParameters U []).entries = [([], [])] ∧
    ∀ m r c g, Parse U m r c [] = FMTP.generic g → g.Parameter [] = ([], true) := by
  refine ⟨rfl, ?_⟩
  intro m r c g h
  rw [Parse_generic_inv U m r c [] g h]
  rfl

/-- C7, at the instance parsed for `audio/x`. -/
theorem parseParameters_empty_witness :
    Parse asciiTables "audio/x".toList 8000 1 [] =
      FMTP.generic ⟨"audio/x".toList, 8000, 1, parseParameters asciiTables []⟩ ∧
    genericFMTP.Parameter ⟨"audio/x".toList, 8000, 1, parseParameters asciiTables []⟩ [] =
      ([], true) :=
  ⟨rfl, (parseParameters_empty asciiTables).2 "audio/x".toList 8000 1
    ⟨"audio/x".toList, 8000, 1, parseParameters asciiTables []⟩ rfl⟩

/-- C8: `channelsEqual a b` holds exactly when `a` and `b` coincide once `0` is read as `1`; it
takes the four listed values and is reflexive, symmetric and transitive. Stated for all natural
numbers, hence for all `uint16` values. -/
theorem channelsEqual_spec :
    (∀ a b : Nat, channelsEqual a b = true ↔
      (if a = 0 then 1 else a) = (if b = 0 then 1 else b)) ∧
    channelsEqual 0 1 = true ∧ channelsEqual 0 0 = true ∧ channelsEqual 2 1 = false ∧
    channelsEqual 2 2 = true ∧
    (∀ a : Nat, channelsEqual a a = true) ∧
    (∀ a b : Nat, channelsEqual a b = true → channelsEqual b a = true) ∧
    (∀ a b c : Nat, channelsEqual a b = true → channelsEqual b c = true →
      channelsEqual a c = true) := by
  refine ⟨?_, by decide, by decide, by decide, by decide, ?_, ?_, ?_⟩
  · intro a b
    simp [channelsEqual]
  · intro a
    simp [channelsEqual]
  · intro a b h
    simp only [channelsEqual, decide_eq_true_eq] at h ⊢
    exact h.symm
  · intro a b c hab hbc
    simp only [channelsEqual, decide_eq_true_eq] at hab hbc ⊢
    exact hab.trans hbc

/-- C8, at concrete channel counts: from `channelsEqual 0 1` and `channelsEqual 1 0`, transitivity
gives `channelsEqual 0 0`, and symmetry turns `channelsEqual 0 1` around. -/
theorem channelsEqual_spec_witness :
    channelsEqual 0 1 = true ∧ channelsEqual 1 0 = true ∧ channelsEqual 0 0 = true :=
  ⟨by decide, channelsEqual_spec.2.2.2.2.2.2.1 0 1 (by decide),
    channelsEqual_spec.2.2.2.2.2.2.2 0 1 0 (by decide) (by decide)⟩

/-- C9: `Parse` returns the H264, VP9 or AV1 variant exactly when the MIME type equals
`video/h264`, `video/vp9` or `video/av1` up to case, and the generic variant exactly when it
equals none of them; the generic instance holds the MIME type as supplied (so equal to it up to
case), the clock rate and channel count as supplied, and the parameters parsed from the line. -/
theorem Parse_dispatch (U : Tables) (m : Str) (r c : Nat) (line : Str) :
    ((∃ f, Parse U m r c line = FMTP.h264 f) ↔
      strings.EqualFold U m "video/h264".toList = true) ∧
    ((∃ f, Parse U m r c line = FMTP.vp9 f) ↔
      strings.EqualFold U m "video/vp9".toList = true) ∧
    ((∃ f, Parse U m r c line = FMTP.av1 f) ↔
      strings.EqualFold U m "video/av1".toList = true) ∧
    ((∃ g, Parse U m r c line = FMTP.generic g) ↔
      (strings.EqualFold U m "video/h264".toList = false ∧
        strings.EqualFold U m "video/vp9".toList = false ∧
        strings.EqualFold U m "video/av1".toList = false)) ∧
    (∀ g, Parse U m r c line = FMTP.generic g →
      g.MimeType = m ∧ strings.EqualFold U g.MimeType m = true ∧ g.clockRate = r ∧
        g.channels = c ∧ g.parameters = parseParameters U line) := by
  cases h1 : strings.EqualFold U m "video/h264".toList with
  | true =>
    rw [EqualFold_h264_vp9 U m h1, EqualFold_h264_av1 U m h1, Parse_h264 U m r c line h1]
    simp
  | false =>
    cases h2 : strings.EqualFold U m "video/vp9".toList with
    | true =>
      rw [EqualFold_vp9_av1 U m h2, Parse_vp9 U m r c line h2]
      simp
    | false =>
      cases h3 : strings.EqualFold U m "video/av1".toList with
      | true =>
        rw [Parse_av1 U m r c line h3]
        simp
      | false =>
        rw [Parse_generic U m r c line h1 h2 h3]
        refine ⟨by simp, by simp, by simp, by simp, ?_⟩
        intro g hg
        cases hg
        exact ⟨rfl, EqualFold_refl U m, rfl, rfl, rfl⟩

/-- C9, at a MIME type outside the fixed set. -/
theorem Parse_dispatch_witness :
    Parse asciiTables "Audio/X".toList 8000 2 "a=1".toList =
      FMTP.generic ⟨"Audio/X".toList, 8000, 2, parseParameters asciiTables "a=1".toList⟩ ∧
    genericFMTP.MimeType ⟨"Audio/X".toList, 8000, 2, parseParameters asciiTables "a=1".toList⟩ =
      "Audio/X".toList :=
  ⟨rfl, ((Parse_dispatch asciiTables "Audio/X".toList 8000 2 "a=1".toList).2.2.2.2
    ⟨"Audio/X".toList, 8000, 2, parseParameters asciiTables "a=1".toList⟩ rfl).1⟩

/-- C10: a generic instance matches no instance of the H264, VP9 or AV1 variant; in particular
the instance parsed for a generic MIME type does not match the one parsed for `video/h264` from
the same clock rate, channel count and line. -/
theorem generic_match_cross_type (U : Tables) (g : genericFMTP) :
    (∀ f, g.Match U (FMTP.h264 f) = false) ∧ (∀ f, g.Match U (FMTP.vp9 f) = false) ∧
    (∀ f, g.Match U (FMTP.av1 f) = false) ∧
    (∀ m r c line, Parse U m r c line = FMTP.generic g →
      g.Match U (Parse U "video/h264".toList r c line) = false) := by
  refine ⟨fun _ => rfl, fun _ => rfl, fun _ => rfl, ?_⟩
  intro m r c line _
  rw [Parse_h264 U "video/h264".toList r c line (EqualFold_refl U _)]
  rfl

/-- C10, at the instance parsed for `audio/x`. -/
theorem generic_match_cross_type_witness :
    Parse asciiTables "audio/x".toList 8000 1 "a=1".toList =
      FMTP.generic ⟨"audio/x".toList, 8000, 1, parseParameters asciiTables "a=1".toList⟩ ∧
    genericFMTP.Match asciiTables
      ⟨"audio/x".toList, 8000, 1, parseParameters asciiTables "a=1".toList⟩
      (Parse asciiTables "video/h264".toList 8000 1 "a=1".toList) = false :=
  ⟨rfl, (generic_match_cross_type asciiTables
    ⟨"audio/x".toList, 8000, 1, parseParameters asciiTables "a=1".toList⟩).2.2.2
    "audio/x".toList 8000 1 "a=1".toList rfl⟩

/-- C11: two generic instances whose parameter maps hold, under some shared key, values that are
not equal up to case do not match, in either direction, whatever their MIME types, clock rates
and channel counts; in particular the instance parsed from `a=1` does not match the one parsed
from `a=2` for the same MIME type, clock rate and channel count. -/
theorem generic_match_conflict (U : Tables) :
    (∀ (g c : genericFMTP) (k v w : Str), g.parameters.get k = some v →
      c.parameters.get k = some w → strings.EqualFold U v w = false →
      g.Match U (FMTP.generic c) = false ∧ c.Match U (FMTP.generic g) = false) ∧
    (Parse U "audio/x".toList 8000 1 "a=1".toList =
      FMTP.generic ⟨"audio/x".toList, 8000, 1, parseParameters U "a=1".toList⟩ ∧
     genericFMTP.Match U ⟨"audio/x".toList, 8000, 1, parseParameters U "a=1".toList⟩
      (Parse U "audio/x".toList 8000 1 "a=2".toList) = false) := by
  refine ⟨?_, rfl, rfl⟩
  intro g c k v w hv hw hne
  have hgc : ¬ compatible U g c := by
    rintro ⟨_, _, _, hs⟩
    rw [hs k v w hv hw] at hne
    cases hne
  have hcg : ¬ compatible U c g := fun h => hgc ((compatible_comm U g c).mpr h)
  rw [← Match_iff_compatible] at hgc hcg
  exact ⟨by simpa using hgc, by simpa using hcg⟩

/-- C11, at the instances parsed from `a=1` and `a=2`, which agree on everything but the value
under `a`. -/
theorem generic_match_conflict_witness :
    genericFMTP.Match asciiTables
        ⟨"audio/x".toList, 8000, 1, parseParameters asciiTables "a=1".toList⟩
        (FMTP.generic ⟨"audio/x".toList, 8000, 1, parseParameters asciiTables "a=2".toList⟩) =
      false ∧
    genericFMTP.Match asciiTables
        ⟨"audio/x".toList, 8000, 1, parseParameters asciiTables "a=2".toList⟩
        (FMTP.generic ⟨"audio/x".toList, 8000, 1, parseParameters asciiTables "a=1".toList⟩) =
      false :=
  (generic_match_conflict asciiTables).1
    ⟨"audio/x".toList, 8000, 1, parseParameters asciiTables "a=1".toList⟩
    ⟨"audio/x".toList, 8000, 1, parseParameters asciiTables "a=2".toList⟩
    "a".toList "1".toList "2".toList (by decide) (by decide) (by decide)

/-- C12: two generic instances with MIME types equal up to case, equal clock rates and
`channelsEqual` channel counts match when the key sets of their parameter maps are disjoint
(no key of the first map is present in the second); in particular the instance parsed from `a=1` matches the one parsed from `b=2` for the same MIME
type, clock rate and channel count. -/
theorem generic_match_disjoint (U : Tables) :
    (∀ g c : genericFMTP, strings.EqualFold U g.MimeType c.MimeType = true →
      g.clockRate = c.clockRate → channelsEqual g.channels c.channels = true →
      (∀ e ∈ g.parameters.entries, c.parameters.get e.1 = none) →
      g.Match U (FMTP.generic c) = true) ∧
    (Parse U "audio/x".toList 8000 1 "a=1".toList =
      FMTP.generic ⟨"audio/x".toList, 8000, 1, parseParameters U "a=1".toList⟩ ∧
     genericFMTP.Match U ⟨"audio/x".toList, 8000, 1, parseParameters U "a=1".toList⟩
      (Parse U "audio/x".toList 8000 1 "b=2".toList) = true) := by
  refine ⟨?_, rfl, rfl⟩
  intro g c hm hr hc hdis
  rw [Match_iff_compatible]
  refine ⟨hm, hr, hc, ?_⟩
  intro k v w hv hw
  have := hdis (k, v) ((get_eq_some_iff g.parameters k v).mp hv)
  rw [this] at hw
  cases hw

/-- C12, at the instances parsed from `a=1` and `b=2;c`, with MIME types that differ in case and
channel counts `0` and `1`. -/
theorem generic_match_disjoint_witness :
    genericFMTP.Match asciiTables
        ⟨"audio/x".toList, 8000, 0, parseParameters asciiTables "a=1".toList⟩
        (FMTP.generic ⟨"Audio/X".toList, 8000, 1, parseParameters asciiTables "b=2;c".toList⟩) =
      true :=
  (generic_match_disjoint asciiTables).1
    ⟨"audio/x".toList, 8000, 0, parseParameters asciiTables "a=1".toList⟩
    ⟨"Audio/X".toList, 8000, 1, parseParameters asciiTables "b=2;c".toList⟩
    (by decide) (by decide) (by decide) (by decide)

/-- C13: on the generic instance parsed from a line, `Parameter key` returns the value with the
presence flag set when the parsed map holds `key` (also when the value is empty, as for a bare
key), and the empty string with the flag cleared when no field of the line has the name `key`,
the name of a field being the lower-cased part of the trimmed field before its first `=`. -/
theorem Parameter_parsed (U : Tables) (m : Str) (r c : Nat) (line : Str) (g : genericFMTP)
    (key : Str) (h : Parse U m r c line = FMTP.generic g) :
    (∀ v, (parseParameters U line).get key = some v → g.Parameter key = (v, true)) ∧
    ((∀ p ∈ strings.Split line ';', fieldName U p ≠ key) → g.Parameter key = ([], false)) ∧
    (g.Parameter key = ([], false) ↔ ∀ p ∈ strings.Split line ';', fieldName U p ≠ key) ∧
    (genericFMTP.Parameter ⟨m, r, c, parseParameters U "a;b=".toList⟩ "a".toList = ([], true) ∧
     genericFMTP.Parameter ⟨m, r, c, parseParameters U "a;b=".toList⟩ "b".toList = ([], true) ∧
     genericFMTP.Parameter ⟨m, r, c, parseParameters U "a;b=".toList⟩ "c".toList =
      ([], false)) := by
  rw [Parse_generic_inv U m r c line g h]
  have habs : (∀ p ∈ strings.Split line ';', fieldName U p ≠ key) →
      genericFMTP.Parameter ⟨m, r, c, parseParameters U line⟩ key = ([], false) := by
    intro hno
    rw [Parameter_eq]
    simp only [(get_parseParameters_eq_none_iff U line key).mpr hno]
    rfl
  refine ⟨?_, habs, ⟨?_, habs⟩, rfl, rfl, rfl⟩
  · intro v hv
    rw [Parameter_eq]
    simp only [hv]
    rfl
  · intro hpar
    rw [Parameter_eq] at hpar
    rw [← get_parseParameters_eq_none_iff]
    cases hget : (parseParameters U line).get key with
    | none => rfl
    | some v =>
      simp only [hget] at hpar
      cases hpar

/-- C13, at the line `a;b=1`: the bare key `a` is present with the empty value, the key `c` is
absent. -/
theorem Parameter_parsed_witness :
    genericFMTP.Parameter ⟨"audio/x".toList, 8000, 1, parseParameters asciiTables "a;b=1".toList⟩
        "a".toList = ([], true) ∧
    genericFMTP.Parameter ⟨"audio/x".toList, 8000, 1, parseParameters asciiTables "a;b=1".toList⟩
        "c".toList = ([], false) :=
  ⟨(Parameter_parsed asciiTables "audio/x".toList 8000 1 "a;b=1".toList
      ⟨"audio/x".toList, 8000, 1, parseParameters asciiTables "a;b=1".toList⟩ "a".toList rfl).1
      [] (by decide),
    (Parameter_parsed asciiTables "audio/x".toList 8000 1 "a;b=1".toList
      ⟨"audio/x".toList, 8000, 1, parseParameters asciiTables "a;b=1".toList⟩ "c".toList rfl).2.1
      (by decide)⟩

/-- C14, as stated, fails: on the instance parsed from `Profile=1` the lookup keys `Profile` and
`profile` are equal up to case, yet `Parameter` finds the value only under `profile`; under
`Profile` and under `PROFILE` it reports the key absent. -/
theorem Parameter_exact_key_counterexample :
    strings.EqualFold asciiTables "Profile".toList "profile".toList = true ∧
    Parse asciiTables "audio/x".toList 8000 1 "Profile=1".toList =
      FMTP.generic ⟨"audio/x".toList, 8000, 1, parseParameters asciiTables "Profile=1".toList⟩ ∧
    genericFMTP.Parameter
      ⟨"audio/x".toList, 8000, 1, parseParameters asciiTables "Profile=1".toList⟩
      "Profile".toList = ([], false) ∧
    genericFMTP.Parameter
      ⟨"audio/x".toList, 8000, 1, parseParameters asciiTables "Profile=1".toList⟩
      "PROFILE".toList = ([], false) ∧
    genericFMTP.Parameter
      ⟨"audio/x".toList, 8000, 1, parseParameters asciiTables "Profile=1".toList⟩
      "profile".toList = ("1".toList, true) :=
  ⟨by decide, rfl, by decide, by decide, by decide⟩

/-- C14, amended: the parameter mapping is keyed by the lower-cased names of the fields and is
looked up with the key exactly as given. On the generic instance parsed from a line,
`Parameter key` reports presence exactly when `key` is the name (trimmed, cut at the first `=`,
lower-cased) of some field of the line, and two lines whose fields have the same names and
values give the same map, so the case of a name in the line does not matter; the lookup key is
not case-folded. From `Profile=1` and from `PROFILE=1` alike `Parameter` returns the value under
`profile` and reports `Profile` absent. -/
theorem Parameter_exact_key (U : Tables) (m : Str) (r c : Nat) (line : Str) (g : genericFMTP)
    (h : Parse U m r c line = FMTP.generic g) :
    (∀ key, (g.Parameter key).2 = true ↔ ∃ p ∈ strings.Split line ';', fieldName U p = key) ∧
    (∀ other, (strings.Split other ';').map (fun p => (fieldName U p, fieldValue U p)) =
        (strings.Split line ';').map (fun p => (fieldName U p, fieldValue U p)) →
      parseParameters U other = g.parameters) ∧
    (genericFMTP.Parameter ⟨m, r, c, parseParameters U "Profile=1".toList⟩ "profile".toList =
        ("1".toList, true) ∧
     genericFMTP.Parameter ⟨m, r, c, parseParameters U "PROFILE=1".toList⟩ "profile".toList =
        ("1".toList, true) ∧
     genericFMTP.Parameter ⟨m, r, c, parseParameters U "Profile=1".toList⟩ "Profile".toList =
        ([], false) ∧
     genericFMTP.Parameter ⟨m, r, c, parseParameters U "PROFILE=1".toList⟩ "Profile".toList =
        ([], false)) := by
  rw [Parse_generic_inv U m r c line g h]
  refine ⟨?_, ?_, rfl, rfl, rfl, rfl⟩
  · intro key
    rw [Parameter_eq]
    simp only [Option.isSome_iff_ne_none, ne_eq, get_parseParameters_eq_none_iff, not_forall,
      not_not, exists_prop]
  · intro other hother
    exact foldl_parseField_congr U _ _ _ hother

/-- C14 amended, at the line `Profile=1;X`: the lower-cased name `x` of its second field is
present. -/
theorem Parameter_exact_key_witness :
    (genericFMTP.Parameter
      ⟨"audio/x".toList, 8000, 1, parseParameters asciiTables "Profile=1;X".toList⟩
      "x".toList).2 = true :=
  ((Parameter_exact_key asciiTables "audio/x".toList 8000 1 "Profile=1;X".toList
      ⟨"audio/x".toList, 8000, 1, parseParameters asciiTables "Profile=1;X".toList⟩ rfl).1
      "x".toList).mpr ⟨"X".toList, by decide, by decide⟩

/-- C15: the parser never fails. Splitting a string at `=` with the limit 2 gives one or two
pieces and splitting a line at `;` gives at least one field, so the index `pp[0]` is in range in
every iteration: `parseParameters` with the index checked at run time returns a map for every
line, the one computed by `parseParameters`, and `Parse` returns an instance for every MIME type,
clock rate, channel count and line. -/
theorem parseParameters_total (U : Tables) :
    (∀ t : Str, 1 ≤ (strings.SplitN t '=' 2).length ∧ (strings.SplitN t '=' 2).length ≤ 2) ∧
    (∀ line : Str, 1 ≤ (strings.Split line ';').length) ∧
    (∀ line : Str, parseParametersChecked U line = some (parseParameters U line)) ∧
    (∀ (m : Str) (r c : Nat) (line : Str),
      ParseChecked U m r c line = some (Parse U m r c line)) := by
  refine ⟨?_, ?_, parseParametersChecked_eq U, ?_⟩
  · intro t
    refine ⟨SplitN_two_pos t '=', ?_⟩
    simp only [strings.SplitN, strings.genSplit]
    cases strings.Cut t '=' with
    | none => simp
    | some ab => simp
  · intro line
    exact genSplit_length_pos _ _ _
  · intro m r c line
    unfold ParseChecked Parse
    rw [parseParametersChecked_eq]
    simp only
    split_ifs <;> rfl

/-- C16: the second loop of the generic matcher is redundant, and so is the first given the
second: on every pair of instances `Match` returns what it returns with only the first loop, and
what it returns with only the second loop. -/
theorem generic_match_one_loop (U : Tables) (g : genericFMTP) (b : FMTP) :
    g.Match U b = MatchFirstLoop U g b ∧ g.Match U b = MatchSecondLoop U g b := by
  cases b with
  | h264 f => exact ⟨rfl, rfl⟩
  | vp9 f => exact ⟨rfl, rfl⟩
  | av1 f => exact ⟨rfl, rfl⟩
  | generic c =>
    have hswap := rangeAgree_swap U c.parameters g.parameters
    constructor
    · simp only [genericFMTP.Match, MatchFirstLoop, hswap]
      split_ifs <;> simp_all
    · simp only [genericFMTP.Match, MatchSecondLoop, ← hswap]
      split_ifs <;> simp_all

/-- C17: white space around a field is ignored, white space next to `=` is kept. In a line made
of fields joined by `;`, putting white space before or after one of the fields does not change
the parsed map (every line is the join of its fields, none of which contains `;`). In a field
`a=b` that is already trimmed and whose `a` has no `=`, the white space at the end of `a` stays
in the key and the white space at the start of `b` stays in the value: the entry is the
lower-cased `a` with the value `b`. In particular `a = 1` parses to the key `a ` with the value
` 1`, which is not what `a=1` parses to. -/
theorem parseParameters_whitespace (U : Tables) :
    (∀ (pre post : List Str) (f ws1 ws2 : Str),
      (∀ q ∈ pre, ';' ∉ q) → (∀ q ∈ post, ';' ∉ q) → ';' ∉ f →
      (∀ c ∈ ws1, unicode.IsSpace U c = true) → (∀ c ∈ ws2, unicode.IsSpace U c = true) →
      parseParameters U (strings.Join (pre ++ (ws1 ++ f ++ ws2) :: post) ';') =
        parseParameters U (strings.Join (pre ++ f :: post) ';')) ∧
    (∀ line : Str, strings.Join (strings.Split line ';') ';' = line ∧
      ∀ p ∈ strings.Split line ';', ';' ∉ p) ∧
    (∀ a b : Str, '=' ∉ a → ';' ∉ a → ';' ∉ b →
      strings.TrimSpace U (a ++ '=' :: b) = a ++ '=' :: b →
      (parseParameters U (a ++ '=' :: b)).entries = [(strings.ToLower U a, b)]) ∧
    (parseParameters U "a = 1".toList).entries = [("a ".toList, " 1".toList)] ∧
    (parseParameters U "a=1".toList).entries = [("a".toList, "1".toList)] ∧
    parseParameters U "a = 1".toList ≠ parseParameters U "a=1".toList := by
  refine ⟨?_, ?_, ?_, rfl, rfl, ?_⟩
  · intro pre post f ws1 ws2 hpre hpost hf h1 h2
    have hpad : ';' ∉ ws1 ++ f ++ ws2 := by
      simp only [List.mem_append, not_or]
      refine ⟨⟨fun hm => ?_, hf⟩, fun hm => ?_⟩
      · have := h1 _ hm
        rw [IsSpace_semicolon] at this
        cases this
      · have := h2 _ hm
        rw [IsSpace_semicolon] at this
        cases this
    have hsplit1 : strings.Split (strings.Join (pre ++ (ws1 ++ f ++ ws2) :: post) ';') ';' =
        pre ++ (ws1 ++ f ++ ws2) :: post := by
      apply Split_Join _ _ (by simp)
      intro x hx
      rcases List.mem_append.mp hx with hx | hx
      · exact hpre x hx
      · rcases List.mem_cons.mp hx with hx | hx
        · rw [hx]
          exact hpad
        · exact hpost x hx
    have hsplit2 : strings.Split (strings.Join (pre ++ f :: post) ';') ';' = pre ++ f :: post := by
      apply Split_Join _ _ (by simp)
      intro x hx
      rcases List.mem_append.mp hx with hx | hx
      · exact hpre x hx
      · rcases List.mem_cons.mp hx with hx | hx
        · rw [hx]
          exact hf
        · exact hpost x hx
    unfold parseParameters
    rw [hsplit1, hsplit2]
    apply foldl_parseField_congr
    simp only [List.map_append, List.map_cons]
    rw [field_congr U (ws1 ++ f ++ ws2) f (TrimSpace_pad U f ws1 ws2 h1 h2)]
  · intro line
    exact ⟨Join_genSplit _ line ';', fun p hp => not_mem_of_mem_Split line ';' p hp⟩
  · intro a b ha hsa hsb ht
    have hsemi : ';' ∉ a ++ '=' :: b := by
      simp only [List.mem_append, List.mem_cons, not_or]
      exact ⟨hsa, by decide, hsb⟩
    rw [parseParameters_single U _ hsemi, entries_set_empty]
    obtain ⟨hn, hv⟩ := fieldName_of_cut U (a ++ '=' :: b) a b ht ha
    rw [hn, hv]
  · intro h
    have h1 : (parseParameters U "a = 1".toList).entries = [("a ".toList, " 1".toList)] := rfl
    have h2 : (parseParameters U "a=1".toList).entries = [("a".toList, "1".toList)] := rfl
    rw [h, h2] at h1
    revert h1
    decide

/-- C17, at the line `a=1;b=2`: blanks and a tab around its second field change nothing. -/
theorem parseParameters_whitespace_witness :
    parseParameters asciiTables
        (strings.Join ["a=1".toList, " \t".toList ++ "b=2".toList ++ "  ".toList] ';') =
      parseParameters asciiTables (strings.Join ["a=1".toList, "b=2".toList] ';') :=
  (parseParameters_whitespace asciiTables).1 ["a=1".toList] [] "b=2".toList " \t".toList
    "  ".toList (by decide) (by decide) (by decide) (by decide) (by decide)

/-- C18: the generic matcher is not transitive. The instances parsed from `a=1`, `b=2` and `a=2`
for one MIME type, clock rate and channel count are such that the first matches the second and
the second matches the third, but the first does not match the third. -/
theorem generic_match_not_transitive (U : Tables) :
    ∃ A B C : genericFMTP,
      A.mimeType = B.mimeType ∧ B.mimeType = C.mimeType ∧
      A.clockRate = B.clockRate ∧ B.clockRate = C.clockRate ∧
      A.channels = B.channels ∧ B.channels = C.channels ∧
      Parse U "audio/x".toList 8000 1 "a=1".toList = FMTP.generic A ∧
      Parse U "audio/x".toList 8000 1 "b=2".toList = FMTP.generic B ∧
      Parse U "audio/x".toList 8000 1 "a=2".toList = FMTP.generic C ∧
      A.Match U (FMTP.generic B) = true ∧ B.Match U (FMTP.generic C) = true ∧
      A.Match U (FMTP.generic C) = false :=
  ⟨⟨"audio/x".toList, 8000, 1, parseParameters U "a=1".toList⟩,
    ⟨"audio/x".toList, 8000, 1, parseParameters U "b=2".toList⟩,
    ⟨"audio/x".toList, 8000, 1, parseParameters U "a=2".toList⟩,
    rfl, rfl, rfl, rfl, rfl, rfl, rfl, rfl, rfl, rfl, rfl, rfl⟩

/-- C19: for every line the parsed map is not empty and has at most `n + 1` entries, `n` being
the number of `;` in the line (the line has `n + 1` fields); it has exactly `n + 1` entries when
the names of the fields are pairwise distinct. -/
theorem parseParameters_len (U : Tables) (line : Str) :
    1 ≤ (parseParameters U line).len ∧
    (parseParameters U line).len ≤ strings.Count line ';' + 1 ∧
    (strings.Split line ';').length = strings.Count line ';' + 1 ∧
    (((strings.Split line ';').map (fieldName U)).Nodup →
      (parseParameters U line).len = strings.Count line ';' + 1) := by
  obtain ⟨_, h2, h3, h4⟩ := len_foldl_parseField U (strings.Split line ';') GoMap.empty
  have hlen := Split_length line ';'
  have hne : strings.Split line ';' ≠ [] := by
    intro h
    rw [h] at hlen
    simp at hlen
  have h0 : GoMap.empty.len = 0 := rfl
  unfold parseParameters
  refine ⟨h3 hne, by omega, hlen, ?_⟩
  intro hnodup
  rw [h4 hnodup (fun p _ hmem => by simp [GoMap.empty] at hmem)]
  omega

/-- C19, at the line `a=1;b;C=2`, whose three fields have distinct names. -/
theorem parseParameters_len_witness :
    ((strings.Split "a=1;b;C=2".toList ';').map (fieldName asciiTables)).Nodup ∧
    (parseParameters asciiTables "a=1;b;C=2".toList).len = 3 :=
  ⟨by decide,
    (parseParameters_len asciiTables "a=1;b;C=2".toList).2.2.2 (by decide)⟩

/-- C20: for every line, every key of the parsed map contains neither `;` nor `=`, does not start
with white space and is unchanged by lower-casing, and every value contains no `;` and does not
end with white space. The lower-case table above ASCII is taken to be regular
(`Tables.LowerRegular`); the statements about values do not depend on it. -/
theorem parsed_entry_shape (U : Tables) (hU : U.LowerRegular) (line k v : Str)
    (h : (k, v) ∈ (parseParameters U line).entries) :
    ';' ∉ k ∧ '=' ∉ k ∧ (∀ c, k.head? = some c → unicode.IsSpace U c = false) ∧
    strings.ToLower U k = k ∧
    ';' ∉ v ∧ (∀ c, v.getLast? = some c → unicode.IsSpace U c = false) := by
  obtain ⟨p, hp, rfl, rfl⟩ := mem_entries_parseParameters U line k v h
  have hsemi : ';' ∉ strings.TrimSpace U p :=
    fun hm => not_mem_of_mem_Split line ';' p hp (mem_of_mem_TrimSpace U p _ hm)
  cases hcut : strings.Cut (strings.TrimSpace U p) '=' with
  | none =>
    have heq := (Cut_eq_none_iff _ _).mp hcut
    obtain ⟨hn, hv⟩ := fieldName_of_not_mem U p heq
    obtain ⟨s1, s2, s3, s4⟩ := ToLower_shape U hU _ hsemi heq (TrimSpace_head U p)
    rw [hn, hv]
    exact ⟨s1, s2, s3, s4, by simp, by simp⟩
  | some ab =>
    obtain ⟨a, b⟩ := ab
    obtain ⟨ht, ha⟩ := (Cut_eq_some_iff _ _ a b).mp hcut
    obtain ⟨hn, hv⟩ := fieldName_of_cut U p a b ht ha
    have hsa : ';' ∉ a := fun hm => hsemi (by rw [ht]; simp [hm])
    have hsb : ';' ∉ b := fun hm => hsemi (by rw [ht]; simp [hm])
    have hhead : ∀ c, a.head? = some c → unicode.IsSpace U c = false := by
      intro c hc
      apply TrimSpace_head U p c
      rw [ht]
      cases a with
      | nil => cases hc
      | cons x xs => simpa using hc
    obtain ⟨s1, s2, s3, s4⟩ := ToLower_shape U hU a hsa ha hhead
    rw [hn, hv]
    refine ⟨s1, s2, s3, s4, hsb, ?_⟩
    intro c hc
    apply TrimSpace_getLast U p c
    rw [ht, List.getLast?_append, List.getLast?_cons, hc]
    rfl

/-- C20, at the entry that the line ` Key = v=W ;x` holds under `key `. -/
theorem parsed_entry_shape_witness :
    ("key ".toList, " v=W".toList) ∈ (parseParameters asciiTables " Key = v=W ;x".toList).entries ∧
    ';' ∉ "key ".toList ∧ '=' ∉ "key ".toList ∧
    (∀ c, "key ".toList.head? = some c → unicode.IsSpace asciiTables c = false) ∧
    strings.ToLower asciiTables "key ".toList = "key ".toList ∧
    ';' ∉ " v=W".toList ∧
    (∀ c, " v=W".toList.getLast? = some c → unicode.IsSpace asciiTables c = false) :=
  ⟨by decide, parsed_entry_shape asciiTables asciiTables_lowerRegular
    " Key = v=W ;x".toList "key ".toList " v=W".toList (by decide)⟩

end fmtp
